import Mathlib

/-!
Verification development for the edsm-dumps-model schema-inference engine.

The engine (src/schema.rs, src/schema/criteria.rs) infers a structural schema
from a corpus of JSON-like sample documents: per-document shapes are widened
into an aggregate (`Types`), the aggregate is canonicalized into an
id-addressed schema of structs and enums, and the schema is pretty-printed.

The shape algebra module (`Type`/`Types`/`ObjectScheme`, declared as
`mod types` in src/schema.rs) is not part of the sources available here, so
its definitions are modelled from the specification (spec.md sections 3 and
4.3); every such definition carries a doc comment starting with
`Modelled from the spec:`. Everything else is translated directly from the
Rust sources.
-/

set_option maxHeartbeats 1600000

namespace EdsmSchema

/-! Association-list primitives used to embed `HashMap` and `BTreeMap`. -/

/-- Lookup in an association list with string keys (embeds `HashMap::get`). -/
def alookup (k : String) : List (String × α) → Option α
  | [] => none
  | (k', v') :: r => if k' = k then some v' else alookup k r

/-- Insert-or-overwrite in an association list (embeds `HashMap::insert`). -/
def ainsert (k : String) (v : α) : List (String × α) → List (String × α)
  | [] => [(k, v)]
  | (k', v') :: r => if k' = k then (k, v) :: r else (k', v') :: ainsert k v r

theorem alookup_ainsert_self (k : String) (v : α) (l : List (String × α)) :
    alookup k (ainsert k v l) = some v := by
  induction l with
  | nil => simp [ainsert, alookup]
  | cons p r ih =>
    obtain ⟨k', v'⟩ := p
    by_cases h : k' = k
    · simp [ainsert, h, alookup]
    · simp [ainsert, h, alookup, ih]

theorem alookup_ainsert_ne (k q : String) (v : α) (l : List (String × α))
    (h : q ≠ k) : alookup q (ainsert k v l) = alookup q l := by
  have hkq : ¬(k = q) := fun hh => h hh.symm
  induction l with
  | nil => simp [ainsert, alookup, hkq]
  | cons p r ih =>
    obtain ⟨k', v'⟩ := p
    by_cases hk : k' = k
    · subst hk
      simp [ainsert, alookup, hkq]
    · by_cases hq : k' = q
      · subst hq
        simp [ainsert, hk, alookup]
      · simp [ainsert, hk, alookup, hq, ih]

/-! Criteria (translated from src/schema/criteria.rs). -/

/-- The per-target discriminant configuration, a map from a field's dotted
path to the name of the sibling attribute acting as discriminant
(`struct Criteria` in criteria.rs; field name kept with its source typo). -/
structure Criteria where
  enum_split_filelds : List (String × String)
deriving DecidableEq

/-- Construct an empty `Criteria` (`Criteria::new`, i.e. `Default`). -/
def Criteria.new : Criteria := ⟨[]⟩

/-- Register a discriminant entry (`Criteria::add`). -/
def Criteria.add (c : Criteria) (field_name type_field : String) : Criteria :=
  ⟨ainsert field_name type_field c.enum_split_filelds⟩

/-- Look up the discriminant field for a field path (`Criteria::is_split_enum`). -/
def Criteria.is_split_enum (c : Criteria) (field_path : String) : Option String :=
  alookup field_path c.enum_split_filelds

/-- The named registry of criteria (`struct Criterias` in criteria.rs). -/
structure Criterias where
  table : List (String × Criteria)

/-- Return the criteria registered for a target, or the permissive default
(`Criterias::get`). -/
def Criterias.get (cs : Criterias) (target_name : String) : Criteria :=
  (alookup target_name cs.table).getD Criteria.new

/-- C9: `Criterias::get` returns the stored `Criteria` when the target name is
present and the empty default `Criteria` otherwise; the lookup is a pure
function of the registry (it cannot fail and cannot mutate), and the default
is permissive: it marks no field as a split enum. -/
theorem criterias_get_total (cs : Criterias) (t : String) :
    (∀ c, alookup t cs.table = some c → cs.get t = c) ∧
    (alookup t cs.table = none → cs.get t = Criteria.new) ∧
    (∀ p, Criteria.new.is_split_enum p = none) := by
  refine ⟨?_, ?_, ?_⟩
  · intro c h
    simp [Criterias.get, h]
  · intro h
    simp [Criterias.get, h]
  · intro p
    simp [Criteria.is_split_enum, Criteria.new, alookup]

/-- Witness for `criterias_get_total` at a concrete registry. -/
theorem criterias_get_total_witness :
    (Criterias.get ⟨[("sys", ⟨[("body", "type")]⟩)]⟩ "sys" = ⟨[("body", "type")]⟩) ∧
    (Criterias.get ⟨[("sys", ⟨[("body", "type")]⟩)]⟩ "other" = Criteria.new) := by
  constructor
  · exact (criterias_get_total ⟨[("sys", ⟨[("body", "type")]⟩)]⟩ "sys").1
      ⟨[("body", "type")]⟩ (by simp [alookup])
  · exact (criterias_get_total ⟨[("sys", ⟨[("body", "type")]⟩)]⟩ "other").2.1
      (by simp [alookup])

/-- C10: after `Criteria::add(p, d)`, `is_split_enum p` returns `some d`
(overwriting any previous entry for `p`), and `is_split_enum q` is unchanged
for every other path `q`; `is_split_enum` is a pure lookup. -/
theorem criteria_add_is_split_enum (c : Criteria) (p d : String) :
    (c.add p d).is_split_enum p = some d ∧
    ∀ q, q ≠ p → (c.add p d).is_split_enum q = c.is_split_enum q := by
  constructor
  · simp [Criteria.add, Criteria.is_split_enum, alookup_ainsert_self]
  · intro q hq
    simp [Criteria.add, Criteria.is_split_enum, alookup_ainsert_ne _ _ _ _ hq]

/-- Witness for `criteria_add_is_split_enum` at a concrete criteria value. -/
theorem criteria_add_is_split_enum_witness :
    ((Criteria.new.add "body" "old").add "body" "type").is_split_enum "body" = some "type" ∧
    ((Criteria.new.add "body" "old").add "body" "type").is_split_enum "factions" =
      (Criteria.new.add "body" "old").is_split_enum "factions" := by
  constructor
  · exact (criteria_add_is_split_enum (Criteria.new.add "body" "old") "body" "type").1
  · exact (criteria_add_is_split_enum (Criteria.new.add "body" "old") "body" "type").2
      "factions" (by decide)

/-! Shape algebra. The `types` module of src/schema.rs is not among the
available sources, so these definitions are modelled from spec.md section 3
and section 4.3. -/

mutual
/-- Modelled from the spec: `Type`, one concrete observed shape at a position
(`Null | Bool | U64 | I64 | Float | String | Array(Types) | Object(label, ObjectScheme)`).
Named `Typ` because `Type` is reserved in Lean. -/
inductive Typ : Type where
  | null | bool | u64 | i64 | float | str
  | array (ts : Types)
  | object (label : String) (scheme : ObjectScheme)
deriving DecidableEq

/-- Modelled from the spec: `Types`, the set of distinct `Type` shapes observed
at one position plus a `nullable` flag. Since the set contains at most one
variant of each scalar kind, at most one `Array` variant (arrays merge
element-wise) and at most one `Object` variant per label, it is represented
canonically: one presence flag per scalar kind, an optional array-element
aggregate, and a label-keyed collection of object schemes. -/
inductive Types : Type where
  | mk (nullable hasBool hasU64 hasI64 hasFloat hasStr : Bool)
       (arr : ArrSlot) (objs : ObjSet)
deriving DecidableEq

/-- Modelled from the spec: the optional `Array` variant of a `Types` set;
`some ts` holds the element-wise union of all arrays observed at the position. -/
inductive ArrSlot : Type where
  | none | some (ts : Types)
deriving DecidableEq

/-- Modelled from the spec: the `Object` variants of a `Types` set, keyed by
discriminant label in ascending order; shapes with different labels are kept
as separate entries. -/
inductive ObjSet : Type where
  | nil | cons (label : String) (scheme : ObjectScheme) (rest : ObjSet)
deriving DecidableEq

/-- Modelled from the spec: `ObjectScheme`, an order-preserving (field-name
ascending) mapping from field name to `Types`, one entry per field name ever
observed at the position. -/
inductive ObjectScheme : Type where
  | nil | cons (name : String) (ts : Types) (rest : ObjectScheme)
deriving DecidableEq
end

/-- Modelled from the spec: set the `nullable` flag of an aggregate. -/
def Types.markNullable : Types → Types
  | .mk _ hb hu hi hf hs a o => .mk true hb hu hi hf hs a o

/-- Modelled from the spec: mark every field of a scheme nullable; applied to
the fields present in only one side of a structural object merge. -/
def ObjectScheme.markAll : ObjectScheme → ObjectScheme
  | .nil => .nil
  | .cons k t r => .cons k t.markNullable r.markAll

/-! Widening. `Types::add` is specified as recursive set union: scalar kinds
accumulate, array element aggregates merge element-wise, object shapes with
the same label merge field-by-field with one-sided fields marked nullable,
and object shapes with different labels stay separate. -/

mutual
/-- Modelled from the spec: union of two aggregates (the recursive set union
underlying `Types::add`). -/
def Types.union : Types → Types → Types
  | .mk n1 b1 u1 i1 f1 s1 a1 o1, .mk n2 b2 u2 i2 f2 s2 a2 o2 =>
    .mk (n1 || n2) (b1 || b2) (u1 || u2) (i1 || i2) (f1 || f2) (s1 || s2)
      (a1.union a2) (o1.union o2)
termination_by a b => sizeOf a + sizeOf b

/-- Modelled from the spec: union of the optional array variants. -/
def ArrSlot.union : ArrSlot → ArrSlot → ArrSlot
  | .none, a => a
  | .some x, .none => .some x
  | .some x, .some y => .some (x.union y)
termination_by a b => sizeOf a + sizeOf b

/-- Modelled from the spec: label-keyed merge of object variants. -/
def ObjSet.union : ObjSet → ObjSet → ObjSet
  | .nil, o => o
  | .cons l1 s1 r1, .nil => .cons l1 s1 r1
  | .cons l1 s1 r1, .cons l2 s2 r2 =>
    if l1 < l2 then .cons l1 s1 (ObjSet.union r1 (.cons l2 s2 r2))
    else if l2 < l1 then .cons l2 s2 (ObjSet.union (.cons l1 s1 r1) r2)
    else .cons l1 (s1.union s2) (ObjSet.union r1 r2)
termination_by a b => sizeOf a + sizeOf b

/-- Modelled from the spec: field-by-field union of two object schemes of the
same label; fields present in only one side are marked nullable. -/
def ObjectScheme.union : ObjectScheme → ObjectScheme → ObjectScheme
  | .nil, o => o.markAll
  | .cons k1 t1 r1, .nil => ObjectScheme.markAll (.cons k1 t1 r1)
  | .cons k1 t1 r1, .cons k2 t2 r2 =>
    if k1 < k2 then .cons k1 t1.markNullable (ObjectScheme.union r1 (.cons k2 t2 r2))
    else if k2 < k1 then .cons k2 t2.markNullable (ObjectScheme.union (.cons k1 t1 r1) r2)
    else .cons k1 (t1.union t2) (ObjectScheme.union r1 r2)
termination_by a b => sizeOf a + sizeOf b
end

mutual
theorem Types.union_comm : ∀ (a b : Types), a.union b = b.union a
  | .mk n1 b1 u1 i1 f1 s1 a1 o1, .mk n2 b2 u2 i2 f2 s2 a2 o2 => by
    simp only [Types.union]
    rw [Bool.or_comm n1, Bool.or_comm b1, Bool.or_comm u1, Bool.or_comm i1,
      Bool.or_comm f1, Bool.or_comm s1, arr_union_comm a1 a2, objSet_union_comm o1 o2]
termination_by a b => sizeOf a + sizeOf b

theorem arr_union_comm : ∀ (a b : ArrSlot), a.union b = b.union a
  | .none, .none => by simp only [ArrSlot.union]
  | .none, .some y => by simp only [ArrSlot.union]
  | .some x, .none => by simp only [ArrSlot.union]
  | .some x, .some y => by
    simp only [ArrSlot.union]
    rw [Types.union_comm x y]
termination_by a b => sizeOf a + sizeOf b

theorem objSet_union_comm : ∀ (a b : ObjSet), a.union b = b.union a
  | .nil, .nil => by simp only [ObjSet.union]
  | .nil, .cons l2 s2 r2 => by simp only [ObjSet.union]
  | .cons l1 s1 r1, .nil => by simp only [ObjSet.union]
  | .cons l1 s1 r1, .cons l2 s2 r2 => by
    rcases lt_trichotomy l1 l2 with h | h | h
    · have h2 : ¬l2 < l1 := lt_asymm h
      simp only [ObjSet.union, if_pos h, if_neg h2]
      rw [objSet_union_comm r1 (.cons l2 s2 r2)]
    · subst h
      simp only [ObjSet.union, if_neg (lt_irrefl l1)]
      rw [objSet_union_comm r1 r2, scheme_union_comm s1 s2]
    · have h2 : ¬l1 < l2 := lt_asymm h
      simp only [ObjSet.union, if_pos h, if_neg h2]
      rw [objSet_union_comm (.cons l1 s1 r1) r2]
termination_by a b => sizeOf a + sizeOf b

theorem scheme_union_comm : ∀ (a b : ObjectScheme), a.union b = b.union a
  | .nil, .nil => by simp only [ObjectScheme.union]
  | .nil, .cons k2 t2 r2 => by simp only [ObjectScheme.union]
  | .cons k1 t1 r1, .nil => by simp only [ObjectScheme.union]
  | .cons k1 t1 r1, .cons k2 t2 r2 => by
    rcases lt_trichotomy k1 k2 with h | h | h
    · have h2 : ¬k2 < k1 := lt_asymm h
      simp only [ObjectScheme.union, if_pos h, if_neg h2]
      rw [scheme_union_comm r1 (.cons k2 t2 r2)]
    · subst h
      simp only [ObjectScheme.union, if_neg (lt_irrefl k1)]
      rw [scheme_union_comm r1 r2, Types.union_comm t1 t2]
    · have h2 : ¬k1 < k2 := lt_asymm h
      simp only [ObjectScheme.union, if_pos h, if_neg h2]
      rw [scheme_union_comm (.cons k1 t1 r1) r2]
termination_by a b => sizeOf a + sizeOf b
end


theorem objSet_union_nil_right : ∀ (a : ObjSet), a.union .nil = a
  | .nil => by simp only [ObjSet.union]
  | .cons l s r => by simp only [ObjSet.union]

theorem scheme_union_nil_right : ∀ (a : ObjectScheme), a.union .nil = a.markAll
  | .nil => by simp only [ObjectScheme.union, ObjectScheme.markAll]
  | .cons k t r => by simp only [ObjectScheme.union]

theorem Types.markNullable_markNullable : ∀ (a : Types),
    a.markNullable.markNullable = a.markNullable
  | .mk _ _ _ _ _ _ _ _ => rfl

theorem Types.union_markNullable_left : ∀ (a b : Types),
    (a.markNullable).union b = (a.union b).markNullable
  | .mk n1 b1 u1 i1 f1 s1 a1 o1, .mk n2 b2 u2 i2 f2 s2 a2 o2 => by
    simp only [Types.markNullable, Types.union, Bool.true_or]

theorem Types.union_markNullable_right (a b : Types) :
    a.union (b.markNullable) = (a.union b).markNullable := by
  rw [Types.union_comm a b.markNullable, Types.union_markNullable_left,
    Types.union_comm b a]

theorem ObjectScheme.markAll_markAll : ∀ (s : ObjectScheme),
    s.markAll.markAll = s.markAll
  | .nil => rfl
  | .cons k t r => by
    simp only [ObjectScheme.markAll, Types.markNullable_markNullable,
      ObjectScheme.markAll_markAll r]

theorem ObjectScheme.union_markAll_left : ∀ (a b : ObjectScheme),
    (a.markAll).union b = (a.union b).markAll
  | .nil, b => by
    simp only [ObjectScheme.markAll, ObjectScheme.union, ObjectScheme.markAll_markAll]
  | .cons k1 t1 r1, .nil => by
    simp only [scheme_union_nil_right, ObjectScheme.markAll_markAll,
      ObjectScheme.markAll]
  | .cons k1 t1 r1, .cons k2 t2 r2 => by
    rcases lt_trichotomy k1 k2 with h | h | h
    · have IH := ObjectScheme.union_markAll_left r1 (.cons k2 t2 r2)
      simp only [ObjectScheme.markAll, ObjectScheme.union, if_pos h,
        if_neg (lt_asymm h), Types.markNullable_markNullable] at IH ⊢
      rw [IH]
    · subst h
      have IH := ObjectScheme.union_markAll_left r1 r2
      simp only [ObjectScheme.markAll, ObjectScheme.union, if_neg (lt_irrefl k1),
        Types.union_markNullable_left] at IH ⊢
      rw [IH]
    · have IH := ObjectScheme.union_markAll_left (.cons k1 t1 r1) r2
      simp only [ObjectScheme.markAll, ObjectScheme.union, if_pos h,
        if_neg (lt_asymm h), Types.markNullable_markNullable] at IH ⊢
      rw [IH]
termination_by a b => sizeOf a + sizeOf b

theorem ObjectScheme.union_markAll_right (a b : ObjectScheme) :
    a.union (b.markAll) = (a.union b).markAll := by
  rw [scheme_union_comm a b.markAll, ObjectScheme.union_markAll_left,
    scheme_union_comm b a]

mutual
theorem Types.union_assoc : ∀ (a b c : Types), (a.union b).union c = a.union (b.union c)
  | .mk n1 b1 u1 i1 f1 s1 a1 o1, .mk n2 b2 u2 i2 f2 s2 a2 o2,
    .mk n3 b3 u3 i3 f3 s3 a3 o3 => by
    simp only [Types.union, Bool.or_assoc, arr_union_assoc a1 a2 a3,
      objSet_union_assoc o1 o2 o3]
termination_by a b c => sizeOf a + sizeOf b + sizeOf c

theorem arr_union_assoc : ∀ (a b c : ArrSlot), (a.union b).union c = a.union (b.union c)
  | .none, b, c => by simp only [ArrSlot.union]
  | .some x, .none, c => by simp only [ArrSlot.union]
  | .some x, .some y, .none => by simp only [ArrSlot.union]
  | .some x, .some y, .some z => by
    simp only [ArrSlot.union, Types.union_assoc x y z]
termination_by a b c => sizeOf a + sizeOf b + sizeOf c

theorem objSet_union_assoc : ∀ (a b c : ObjSet), (a.union b).union c = a.union (b.union c)
  | .nil, b, c => by simp only [ObjSet.union]
  | .cons l1 s1 r1, .nil, c => by simp only [ObjSet.union, objSet_union_nil_right]
  | .cons l1 s1 r1, .cons l2 s2 r2, .nil => by
    simp only [objSet_union_nil_right]
  | .cons l1 s1 r1, .cons l2 s2 r2, .cons l3 s3 r3 => by
    rcases lt_trichotomy l1 l2 with h12 | h12 | h12
    · rcases lt_trichotomy l2 l3 with h23 | h23 | h23
      · have h13 : l1 < l3 := lt_trans h12 h23
        have IH := objSet_union_assoc r1 (.cons l2 s2 r2) (.cons l3 s3 r3)
        simp only [ObjSet.union, if_pos h12, if_pos h23, if_pos h13,
          if_neg (lt_asymm h12), if_neg (lt_asymm h23), if_neg (lt_asymm h13)] at IH ⊢
        rw [IH]
      · subst h23
        have IH := objSet_union_assoc r1 (.cons l2 s2 r2) (.cons l2 s3 r3)
        simp only [ObjSet.union, if_pos h12, if_neg (lt_asymm h12),
          if_neg (lt_irrefl l2)] at IH ⊢
        rw [IH]
      · rcases lt_trichotomy l1 l3 with h13 | h13 | h13
        · have IH := objSet_union_assoc r1 (.cons l2 s2 r2) (.cons l3 s3 r3)
          simp only [ObjSet.union, if_pos h12, if_pos h23, if_pos h13,
            if_neg (lt_asymm h12), if_neg (lt_asymm h23), if_neg (lt_asymm h13)] at IH ⊢
          rw [IH]
        · subst h13
          have IH := objSet_union_assoc r1 (.cons l2 s2 r2) r3
          simp only [ObjSet.union, if_pos h12, if_pos h23, if_neg (lt_asymm h12),
            if_neg (lt_asymm h23), if_neg (lt_irrefl l1)] at IH ⊢
          rw [IH]
        · have IH := objSet_union_assoc (.cons l1 s1 r1) (.cons l2 s2 r2) r3
          simp only [ObjSet.union, if_pos h12, if_pos h23, if_pos h13,
            if_neg (lt_asymm h12), if_neg (lt_asymm h23), if_neg (lt_asymm h13)] at IH ⊢
          rw [IH]
    · subst h12
      rcases lt_trichotomy l1 l3 with h13 | h13 | h13
      · have IH := objSet_union_assoc r1 r2 (.cons l3 s3 r3)
        simp only [ObjSet.union, if_neg (lt_irrefl l1), if_pos h13,
          if_neg (lt_asymm h13)] at IH ⊢
        rw [IH]
      · subst h13
        have IH := objSet_union_assoc r1 r2 r3
        simp only [ObjSet.union, if_neg (lt_irrefl l1)] at IH ⊢
        rw [IH, scheme_union_assoc s1 s2 s3]
      · have IH := objSet_union_assoc (.cons l1 s1 r1) (.cons l1 s2 r2) r3
        simp only [ObjSet.union, if_neg (lt_irrefl l1), if_pos h13,
          if_neg (lt_asymm h13)] at IH ⊢
        rw [IH]
    · rcases lt_trichotomy l2 l3 with h23 | h23 | h23
      · have IH := objSet_union_assoc (.cons l1 s1 r1) r2 (.cons l3 s3 r3)
        simp only [ObjSet.union, if_pos h12, if_pos h23, if_neg (lt_asymm h12),
          if_neg (lt_asymm h23)] at IH ⊢
        rw [IH]
      · subst h23
        have IH := objSet_union_assoc (.cons l1 s1 r1) r2 r3
        simp only [ObjSet.union, if_pos h12, if_neg (lt_asymm h12),
          if_neg (lt_irrefl l2)] at IH ⊢
        rw [IH]
      · have h13 : l3 < l1 := lt_trans h23 h12
        have IH := objSet_union_assoc (.cons l1 s1 r1) (.cons l2 s2 r2) r3
        simp only [ObjSet.union, if_pos h12, if_pos h23, if_pos h13,
          if_neg (lt_asymm h12), if_neg (lt_asymm h23), if_neg (lt_asymm h13)] at IH ⊢
        rw [IH]
termination_by a b c => sizeOf a + sizeOf b + sizeOf c

theorem scheme_union_assoc : ∀ (a b c : ObjectScheme),
    (a.union b).union c = a.union (b.union c)
  | .nil, b, c => by
    simp only [ObjectScheme.union, ObjectScheme.union_markAll_left]
  | .cons k1 t1 r1, .nil, c => by
    simp only [scheme_union_nil_right, ObjectScheme.union,
      ObjectScheme.union_markAll_left, ObjectScheme.union_markAll_right]
  | .cons k1 t1 r1, .cons k2 t2 r2, .nil => by
    simp only [scheme_union_nil_right, ObjectScheme.union_markAll_right]
  | .cons k1 t1 r1, .cons k2 t2 r2, .cons k3 t3 r3 => by
    rcases lt_trichotomy k1 k2 with h12 | h12 | h12
    · rcases lt_trichotomy k2 k3 with h23 | h23 | h23
      · have h13 : k1 < k3 := lt_trans h12 h23
        have IH := scheme_union_assoc r1 (.cons k2 t2 r2) (.cons k3 t3 r3)
        simp only [ObjectScheme.union, if_pos h12, if_pos h23, if_pos h13,
          if_neg (lt_asymm h12), if_neg (lt_asymm h23), if_neg (lt_asymm h13),
          Types.markNullable_markNullable] at IH ⊢
        rw [IH]
      · subst h23
        have IH := scheme_union_assoc r1 (.cons k2 t2 r2) (.cons k2 t3 r3)
        simp only [ObjectScheme.union, if_pos h12, if_neg (lt_asymm h12),
          if_neg (lt_irrefl k2), Types.markNullable_markNullable] at IH ⊢
        rw [IH]
      · rcases lt_trichotomy k1 k3 with h13 | h13 | h13
        · have IH := scheme_union_assoc r1 (.cons k2 t2 r2) (.cons k3 t3 r3)
          simp only [ObjectScheme.union, if_pos h12, if_pos h23, if_pos h13,
            if_neg (lt_asymm h12), if_neg (lt_asymm h23), if_neg (lt_asymm h13),
            Types.markNullable_markNullable] at IH ⊢
          rw [IH]
        · subst h13
          have IH := scheme_union_assoc r1 (.cons k2 t2 r2) r3
          simp only [ObjectScheme.union, if_pos h12, if_pos h23, if_neg (lt_asymm h12),
            if_neg (lt_asymm h23), if_neg (lt_irrefl k1),
            Types.union_markNullable_left, Types.union_markNullable_right] at IH ⊢
          rw [IH]
        · have IH := scheme_union_assoc (.cons k1 t1 r1) (.cons k2 t2 r2) r3
          simp only [ObjectScheme.union, if_pos h12, if_pos h23, if_pos h13,
            if_neg (lt_asymm h12), if_neg (lt_asymm h23), if_neg (lt_asymm h13),
            Types.markNullable_markNullable] at IH ⊢
          rw [IH]
    · subst h12
      rcases lt_trichotomy k1 k3 with h13 | h13 | h13
      · have IH := scheme_union_assoc r1 r2 (.cons k3 t3 r3)
        simp only [ObjectScheme.union, if_neg (lt_irrefl k1), if_pos h13,
          if_neg (lt_asymm h13), Types.union_markNullable_left,
          Types.union_markNullable_right] at IH ⊢
        rw [IH]
      · subst h13
        have IH := scheme_union_assoc r1 r2 r3
        simp only [ObjectScheme.union, if_neg (lt_irrefl k1)] at IH ⊢
        rw [IH, Types.union_assoc t1 t2 t3]
      · have IH := scheme_union_assoc (.cons k1 t1 r1) (.cons k1 t2 r2) r3
        simp only [ObjectScheme.union, if_neg (lt_irrefl k1), if_pos h13,
          if_neg (lt_asymm h13), Types.markNullable_markNullable,
          Types.union_markNullable_left] at IH ⊢
        rw [IH]
    · rcases lt_trichotomy k2 k3 with h23 | h23 | h23
      · have IH := scheme_union_assoc (.cons k1 t1 r1) r2 (.cons k3 t3 r3)
        simp only [ObjectScheme.union, if_pos h12, if_pos h23, if_neg (lt_asymm h12),
          if_neg (lt_asymm h23), Types.markNullable_markNullable] at IH ⊢
        rw [IH]
      · subst h23
        have IH := scheme_union_assoc (.cons k1 t1 r1) r2 r3
        simp only [ObjectScheme.union, if_pos h12, if_neg (lt_asymm h12),
          if_neg (lt_irrefl k2), Types.union_markNullable_left] at IH ⊢
        rw [IH]
      · have h13 : k3 < k1 := lt_trans h23 h12
        have IH := scheme_union_assoc (.cons k1 t1 r1) (.cons k2 t2 r2) r3
        simp only [ObjectScheme.union, if_pos h12, if_pos h23, if_pos h13,
          if_neg (lt_asymm h12), if_neg (lt_asymm h23), if_neg (lt_asymm h13),
          Types.markNullable_markNullable] at IH ⊢
        rw [IH]
termination_by a b c => sizeOf a + sizeOf b + sizeOf c
end

mutual
theorem Types.union_self : ∀ (a : Types), a.union a = a
  | .mk n b u i f s a o => by
    simp only [Types.union, Bool.or_self, arr_union_self a, objSet_union_self o]
termination_by a => sizeOf a

theorem arr_union_self : ∀ (a : ArrSlot), a.union a = a
  | .none => by simp only [ArrSlot.union]
  | .some x => by simp only [ArrSlot.union, Types.union_self x]
termination_by a => sizeOf a

theorem objSet_union_self : ∀ (a : ObjSet), a.union a = a
  | .nil => by simp only [ObjSet.union]
  | .cons l s r => by
    simp only [ObjSet.union, if_neg (lt_irrefl l), objSet_union_self r,
      scheme_union_self s]
termination_by a => sizeOf a

theorem scheme_union_self : ∀ (a : ObjectScheme), a.union a = a
  | .nil => by simp only [ObjectScheme.union, ObjectScheme.markAll]
  | .cons k t r => by
    simp only [ObjectScheme.union, if_neg (lt_irrefl k), scheme_union_self r,
      Types.union_self t]
termination_by a => sizeOf a
end

/-- Modelled from the spec: the empty aggregate (`Types::empty`): nothing
observed, not nullable. -/
def Types.empty : Types := .mk false false false false false false .none .nil

/-- Modelled from the spec: the `nullable` flag of an aggregate
(`Types::is_nullable`). -/
def Types.is_nullable : Types → Bool
  | .mk n _ _ _ _ _ _ _ => n

/-- Modelled from the spec: the aggregate containing exactly one observed
shape (`Null` contributes no variant, only nullability). -/
def Typ.toTypes : Typ → Types
  | .null => .mk true false false false false false .none .nil
  | .bool => .mk false true false false false false .none .nil
  | .u64 => .mk false false true false false false .none .nil
  | .i64 => .mk false false false true false false .none .nil
  | .float => .mk false false false false true false .none .nil
  | .str => .mk false false false false false true .none .nil
  | .array ts => .mk false false false false false false (.some ts) .nil
  | .object l s => .mk false false false false false false .none (.cons l s .nil)

/-- Modelled from the spec: `Types::add`, widening the aggregate by one
observed shape via recursive set union. -/
def Types.add (ts : Types) (t : Typ) : Types := ts.union t.toTypes

/-! Input documents. `serde_json::Value` is the document type consumed by
`Type::from_value`; it is embedded with explicit list constructors so that
the whole family is a plain mutual inductive. A number is one of `numU`
(unsigned integral), `numNeg` (integral requiring sign, holding `-(n+1)`)
or `numFloat` (any other numeric value, payload left abstract). -/

mutual
/-- Embeds `serde_json::Value`, the input document type. -/
inductive Json : Type where
  | null
  | bool (b : Bool)
  | numU (n : Nat)
  | numNeg (n : Nat)
  | numFloat (payload : Nat)
  | str (s : String)
  | arr (elems : JsonList)
  | obj (fields : JsonFields)
deriving DecidableEq

/-- Embeds a JSON array's element list. -/
inductive JsonList : Type where
  | nil | cons (head : Json) (tail : JsonList)
deriving DecidableEq

/-- Embeds a JSON object's field list (name ascending, as in
`serde_json::Map` backed by `BTreeMap`). -/
inductive JsonFields : Type where
  | nil | cons (name : String) (val : Json) (tail : JsonFields)
deriving DecidableEq
end

/-- Modelled from the spec: extend a dotted field path by one field name. -/
def appendPath (path k : String) : String :=
  if path = "" then k else path ++ "." ++ k

/-- Field lookup inside one JSON object, used to read a discriminant value. -/
def JsonFields.lookup (k : String) : JsonFields → Option Json
  | .nil => none
  | .cons k' v r => if k' = k then some v else JsonFields.lookup k r

/-- Modelled from the spec: the label of an object shape. When the object's
field path matches a `Criteria` entry, the label is the string value of the
configured discriminant field inside this object; otherwise (including the
open-question fallback of a missing or non-string discriminant) the label is
uniform (empty), so widening structurally merges such objects. -/
def labelOf (c : Criteria) (path : String) (fs : JsonFields) : String :=
  match c.is_split_enum path with
  | Option.none => ""
  | Option.some d =>
    match fs.lookup d with
    | Option.some (.str s) => s
    | _ => ""

/-- Modelled from the spec: sorted insertion of a field into an object
scheme (field-name ascending, replacing an existing entry). -/
def ObjectScheme.insert (k : String) (ts : Types) : ObjectScheme → ObjectScheme
  | .nil => .cons k ts .nil
  | .cons k' ts' r =>
    if k < k' then .cons k ts (.cons k' ts' r)
    else if k' < k then .cons k' ts' (ObjectScheme.insert k ts r)
    else .cons k ts r

mutual
/-- Modelled from the spec: `Type::from_value`, mapping one document value to
its observed shape under the current field path and criteria. Scalars map
directly; an array maps to `Array` of the union of its elements' types
(elements keep the array's own path); an object maps to
`Object(label, scheme)` with each field recursing under its extended path. -/
def Json.from_value (c : Criteria) (path : String) : Json → Typ
  | .null => .null
  | .bool _ => .bool
  | .numU _ => .u64
  | .numNeg _ => .i64
  | .numFloat _ => .float
  | .str _ => .str
  | .arr xs => .array (JsonList.elemTypes c path xs)
  | .obj fs => .object (labelOf c path fs) (JsonFields.toScheme c path fs)

/-- Modelled from the spec: the union of the observed shapes of an array's
elements (an empty array yields the empty aggregate). -/
def JsonList.elemTypes (c : Criteria) (path : String) : JsonList → Types
  | .nil => Types.empty
  | .cons j rest => (JsonList.elemTypes c path rest).add (Json.from_value c path j)

/-- Modelled from the spec: the object scheme of one observed object, each
field holding the singleton aggregate of its value's shape. -/
def JsonFields.toScheme (c : Criteria) (path : String) : JsonFields → ObjectScheme
  | .nil => .nil
  | .cons k v rest =>
    ObjectScheme.insert k ((Json.from_value c (appendPath path k) v).toTypes)
      (JsonFields.toScheme c path rest)
end

/-- The generator state (`struct SchemaGenerator` in schema.rs): the criteria
and the running aggregate. -/
structure SchemaGenerator where
  criteria : Criteria
  types : Types

/-- Create an empty generator (`SchemaGenerator::new`). -/
def SchemaGenerator.new (c : Criteria) : SchemaGenerator :=
  ⟨c, Types.empty⟩

/-- Accumulate one document (`SchemaGenerator::add_value`): compute its shape
with `Type::from_value` and widen the aggregate with `Types::add`. -/
def SchemaGenerator.add_value (g : SchemaGenerator) (val : Json) : SchemaGenerator :=
  { g with types := g.types.add (Json.from_value g.criteria "" val) }

/-! Order independence of widening. -/

theorem Types.union_empty_left (a : Types) : Types.empty.union a = a := by
  obtain ⟨n, b, u, i, f, s, ar, o⟩ := a
  simp only [Types.empty, Types.union, Bool.false_or, ArrSlot.union, ObjSet.union]

theorem Types.union_empty_right (a : Types) : a.union Types.empty = a := by
  rw [Types.union_comm, Types.union_empty_left]

/-- The aggregate reached after feeding a list of documents in order into an
empty aggregate. -/
def aggregate (c : Criteria) (docs : List Json) : Types :=
  docs.foldl (fun ts d => ts.union (Json.from_value c "" d).toTypes) Types.empty

theorem foldl_union_shift (c : Criteria) (docs : List Json) (x : Types) :
    docs.foldl (fun ts d => ts.union (Json.from_value c "" d).toTypes) x
      = x.union (aggregate c docs) := by
  induction docs generalizing x with
  | nil => simp [aggregate, List.foldl_nil, Types.union_empty_right]
  | cons d t ih =>
    simp only [aggregate, List.foldl_cons] at ih ⊢
    rw [ih, ih (Types.empty.union (Json.from_value c "" d).toTypes),
      Types.union_empty_left, Types.union_assoc]

theorem aggregate_cons (c : Criteria) (d : Json) (t : List Json) :
    aggregate c (d :: t) = ((Json.from_value c "" d).toTypes).union (aggregate c t) := by
  rw [aggregate, List.foldl_cons, foldl_union_shift, Types.union_empty_left]

theorem aggregate_absorb (c : Criteria) (d : Json) (l : List Json) (hd : d ∈ l) :
    (aggregate c l).union ((Json.from_value c "" d).toTypes) = aggregate c l := by
  induction l with
  | nil => cases hd
  | cons e t ih =>
    rw [aggregate_cons]
    rcases List.mem_cons.mp hd with he | ht
    · subst he
      rw [Types.union_assoc,
        Types.union_comm (aggregate c t) ((Json.from_value c "" d).toTypes),
        ← Types.union_assoc, Types.union_self]
    · rw [Types.union_assoc, ih ht]

theorem aggregate_absorb_all (c : Criteria) (l1 l2 : List Json)
    (h : ∀ x ∈ l2, x ∈ l1) :
    (aggregate c l1).union (aggregate c l2) = aggregate c l1 := by
  induction l2 with
  | nil => simpa [aggregate] using Types.union_empty_right (aggregate c l1)
  | cons d t ih =>
    rw [aggregate_cons, ← Types.union_assoc,
      aggregate_absorb c d l1 (h d (List.mem_cons_self d t)), ih]
    intro x hx
    exact h x (List.mem_cons_of_mem d hx)

theorem aggregate_ext (c : Criteria) (l1 l2 : List Json)
    (h : ∀ d, d ∈ l1 ↔ d ∈ l2) : aggregate c l1 = aggregate c l2 := by
  have h1 : (aggregate c l1).union (aggregate c l2) = aggregate c l1 :=
    aggregate_absorb_all c l1 l2 (fun x hx => (h x).mpr hx)
  have h2 : (aggregate c l2).union (aggregate c l1) = aggregate c l2 :=
    aggregate_absorb_all c l2 l1 (fun x hx => (h x).mp hx)
  rw [← h1, Types.union_comm, h2]

theorem generator_fold_state (c : Criteria) (docs : List Json) :
    docs.foldl SchemaGenerator.add_value (SchemaGenerator.new c)
      = ⟨c, aggregate c docs⟩ := by
  have main : ∀ (l : List Json) (ts : Types),
      l.foldl SchemaGenerator.add_value ⟨c, ts⟩
        = ⟨c, l.foldl (fun a d => a.union (Json.from_value c "" d).toTypes) ts⟩ := by
    intro l
    induction l with
    | nil => intro ts; simp
    | cons d t ih =>
      intro ts
      simp only [List.foldl_cons, SchemaGenerator.add_value, Types.add]
      exact ih (ts.union (Json.from_value c "" d).toTypes)
  exact main docs Types.empty

/-! Canonicalizer data model (translated from src/schema.rs). -/

/-- Generic sorted-insert into an association list ordered by the boolean
comparison `lt` (embeds `BTreeMap::insert`: replaces the value on an equal
key). -/
def insertSorted (lt : κ → κ → Bool) (k : κ) (v : α) : List (κ × α) → List (κ × α)
  | [] => [(k, v)]
  | (k', v') :: r =>
    if lt k k' then (k, v) :: (k', v') :: r
    else if lt k' k then (k', v') :: insertSorted lt k v r
    else (k, v) :: r

/-- Generic key lookup in an association list (embeds `BTreeMap::get`). -/
def lookupKey [DecidableEq κ] (k : κ) : List (κ × α) → Option α
  | [] => Option.none
  | (k', v') :: r => if k' = k then Option.some v' else lookupKey k r

/-- String comparison as a boolean, the key order of `BTreeMap<String, _>`. -/
def strLtB (a b : String) : Bool := decide (a < b)

/-- Nat comparison as a boolean, the key order of `BTreeMap<u64, _>`. -/
def natLtB (a b : Nat) : Bool := decide (a < b)

mutual
/-- The canonical shape of a position (`enum SchemaTypes` in schema.rs). -/
inductive SchemaTypes : Type where
  | unit | bool | u64 | i64 | float | str
  | array (t : SchemaType)
  | struct (id : Nat)
  | enum (id : Nat)
deriving DecidableEq

/-- The canonical type of a position (`struct SchemaType` in schema.rs):
nullability plus shape. -/
inductive SchemaType : Type where
  | mk (is_nullable : Bool) (typ : SchemaTypes)
deriving DecidableEq
end

/-- Field accessor for `SchemaType.is_nullable`. -/
def SchemaType.is_nullable : SchemaType → Bool
  | .mk n _ => n

/-- Field accessor for `SchemaType.typ`. -/
def SchemaType.typ : SchemaType → SchemaTypes
  | .mk _ t => t

/-- The tag of one enum arm (`enum Variant` in schema.rs). -/
inductive Variant : Type where
  | Primitive (s : String)
  | Struct (id : Nat)
  | Enum (id : Nat)
deriving DecidableEq

/-- The derived `Ord` of the Rust `Variant`: constructor order
`Primitive < Struct < Enum`, payload order inside a constructor. -/
def Variant.lt : Variant → Variant → Bool
  | .Primitive a, .Primitive b => strLtB a b
  | .Primitive _, .Struct _ => true
  | .Primitive _, .Enum _ => true
  | .Struct _, .Primitive _ => false
  | .Struct a, .Struct b => natLtB a b
  | .Struct _, .Enum _ => true
  | .Enum _, .Primitive _ => false
  | .Enum _, .Struct _ => false
  | .Enum a, .Enum b => natLtB a b

/-- A finalized struct definition (`struct Struct` in schema.rs), an ordered
field-name-to-type map. -/
structure Struct where
  fields : List (String × SchemaType)
deriving DecidableEq

/-- A finalized enum definition (`struct Enum` in schema.rs), an ordered
variant-to-shape map. -/
structure Enum where
  arms : List (Variant × SchemaTypes)
deriving DecidableEq

/-- Create an empty enum (`Enum::new`). -/
def Enum.new : Enum := ⟨[]⟩

/-- Register one arm (`Enum::add`). -/
def Enum.add (e : Enum) (variant : Variant) (ty : SchemaTypes) : Enum :=
  ⟨insertSorted Variant.lt variant ty e.arms⟩

/-- The canonicalization state (`struct SchemaBuilder` in schema.rs): the two
id-keyed tables and the id counter. -/
structure SchemaBuilder where
  structs : List (Nat × Struct)
  enums : List (Nat × Enum)
  id : Nat
deriving DecidableEq

/-- A fresh builder (`SchemaBuilder::new`). -/
def SchemaBuilder.new : SchemaBuilder := ⟨[], [], 0⟩

/-- Insert a struct definition (`SchemaBuilder::add_struct`). -/
def SchemaBuilder.add_struct (b : SchemaBuilder) (id : Nat) (st : Struct) : SchemaBuilder :=
  { b with structs := insertSorted natLtB id st b.structs }

/-- Insert an enum definition (`SchemaBuilder::add_enum`). -/
def SchemaBuilder.add_enum (b : SchemaBuilder) (id : Nat) (e : Enum) : SchemaBuilder :=
  { b with enums := insertSorted natLtB id e b.enums }

/-- Draw the next id from the shared counter (`SchemaBuilder::next_id`). -/
def SchemaBuilder.next_id (b : SchemaBuilder) : Nat × SchemaBuilder :=
  (b.id, { b with id := b.id + 1 })

/-- The finalized schema (`struct Schema` in schema.rs). -/
structure Schema where
  root : SchemaType
  structs : List (Nat × Struct)
  enums : List (Nat × Enum)
deriving DecidableEq

/-- Finalize the builder (`SchemaBuilder::build`). -/
def SchemaBuilder.build (b : SchemaBuilder) (root : SchemaType) : Schema :=
  ⟨root, b.structs, b.enums⟩

/-! The variant view of an aggregate, consumed by `SchemaType::parse` through
`variants_count` and `into_iter`. Modelled from the spec: the iteration order
is scalar kinds first (declaration order), then the array variant, then the
object variants in label order; `Null` is never a variant in this canonical
representation (nullability is the flag), so the `filter` in schema.rs keeps
every element. -/

/-- Modelled from the spec: the object variants of an aggregate as `Type`
values. -/
def ObjSet.toTypList : ObjSet → List Typ
  | .nil => []
  | .cons l s r => .object l s :: r.toTypList

/-- Modelled from the spec: the distinct shapes of an aggregate as `Type`
values (the `IntoIterator` view of `Types`). -/
def Types.variantsList : Types → List Typ
  | .mk _ b u i f s a o =>
    (if b then [Typ.bool] else []) ++ (if u then [Typ.u64] else []) ++
    (if i then [Typ.i64] else []) ++ (if f then [Typ.float] else []) ++
    (if s then [Typ.str] else []) ++
    (match a with | .none => [] | .some e => [Typ.array e]) ++ o.toTypList

/-- Modelled from the spec: `Types::variants_count`, the number of distinct
non-null shapes. -/
def Types.variants_count (ts : Types) : Nat := ts.variantsList.length

/-- Test for the `Null` shape (the `*t != Type::Null` filter in schema.rs). -/
def Typ.isNull : Typ → Bool
  | .null => true
  | _ => false

/-! Weight measures used to justify termination of the canonicalizer. -/

mutual
/-- Termination measure of an aggregate. -/
def Types.weight : Types → Nat
  | .mk _ _ _ _ _ _ a o => 20 + a.weight + o.weight

/-- Termination measure of an optional array variant. -/
def ArrSlot.weight : ArrSlot → Nat
  | .none => 1
  | .some ts => 5 + ts.weight

/-- Termination measure of the object variants. -/
def ObjSet.weight : ObjSet → Nat
  | .nil => 1
  | .cons _ s r => 5 + s.weight + r.weight

/-- Termination measure of an object scheme. -/
def ObjectScheme.weight : ObjectScheme → Nat
  | .nil => 1
  | .cons _ t r => 5 + t.weight + r.weight
end

/-- Termination measure of a single shape. -/
def Typ.weight : Typ → Nat
  | .array ts => 2 + ts.weight
  | .object _ s => 2 + s.weight
  | _ => 1

/-- Termination measure of a shape list. -/
def typListWeight : List Typ → Nat
  | [] => 0
  | t :: r => 1 + t.weight + typListWeight r

theorem typListWeight_filter_le (p : Typ → Bool) : ∀ (l : List Typ),
    typListWeight (l.filter p) ≤ typListWeight l
  | [] => Nat.le_refl _
  | t :: r => by
    have ih := typListWeight_filter_le p r
    by_cases h : p t
    · simp only [List.filter_cons, h, if_pos, typListWeight]
      omega
    · simp only [List.filter_cons, h, Bool.false_eq_true, if_false, typListWeight]
      omega

theorem typListWeight_mem (t : Typ) : ∀ (l : List Typ), t ∈ l →
    Typ.weight t + 1 ≤ typListWeight l
  | [], h => by cases h
  | e :: r, h => by
    rcases List.mem_cons.mp h with he | hr
    · subst he
      simp only [typListWeight]
      omega
    · have := typListWeight_mem t r hr
      simp only [typListWeight]
      omega

theorem typListWeight_append (a b : List Typ) :
    typListWeight (a ++ b) = typListWeight a + typListWeight b := by
  induction a with
  | nil => simp [typListWeight]
  | cons t r ih => simp [typListWeight, ih]; omega

theorem typListWeight_toTypList : ∀ (o : ObjSet),
    typListWeight o.toTypList + 1 ≤ o.weight
  | .nil => by simp [ObjSet.toTypList, typListWeight, ObjSet.weight]
  | .cons l s r => by
    have ih := typListWeight_toTypList r
    simp only [ObjSet.toTypList, typListWeight, ObjSet.weight, Typ.weight]
    omega

theorem typListWeight_variants (ts : Types) :
    typListWeight ts.variantsList + 9 ≤ ts.weight := by
  obtain ⟨n, b, u, i, f, s, a, o⟩ := ts
  have ho := typListWeight_toTypList o
  have ha : typListWeight (match a with
      | ArrSlot.none => []
      | ArrSlot.some e => [Typ.array e]) ≤ a.weight := by
    cases a with
    | none => simp only [typListWeight, ArrSlot.weight]; omega
    | some e => simp only [typListWeight, ArrSlot.weight, Typ.weight]; omega
  have hb : typListWeight (if b then [Typ.bool] else []) ≤ 2 := by
    cases b <;> simp [typListWeight, Typ.weight]
  have hu : typListWeight (if u then [Typ.u64] else []) ≤ 2 := by
    cases u <;> simp [typListWeight, Typ.weight]
  have hi : typListWeight (if i then [Typ.i64] else []) ≤ 2 := by
    cases i <;> simp [typListWeight, Typ.weight]
  have hf : typListWeight (if f then [Typ.float] else []) ≤ 2 := by
    cases f <;> simp [typListWeight, Typ.weight]
  have hs : typListWeight (if s then [Typ.str] else []) ≤ 2 := by
    cases s <;> simp [typListWeight, Typ.weight]
  simp only [Types.variantsList, typListWeight_append, Types.weight]
  omega

theorem typListWeight_filtered_variants (ts : Types) :
    typListWeight (ts.variantsList.filter (fun t => !t.isNull)) + 9 ≤ ts.weight :=
  le_trans (by have := typListWeight_filter_le (fun t => !t.isNull) ts.variantsList; omega)
    (typListWeight_variants ts)

/-- `SchemaTypes::varinat` (source spelling kept): the `Variant` tag of a
canonical shape — the primitive kind name for scalar and array shapes, the
composite id for struct and enum shapes. -/
def SchemaTypes.varinat : SchemaTypes → Variant
  | .unit => .Primitive "Unit"
  | .bool => .Primitive "Bool"
  | .u64 => .Primitive "U64"
  | .i64 => .Primitive "I64"
  | .float => .Primitive "Float"
  | .str => .Primitive "String"
  | .array _ => .Primitive "Array"
  | .struct id => .Struct id
  | .enum id => .Enum id

/-! The canonicalization pass (translated from src/schema.rs). Partiality of
the Rust code (the `unreachable!()` arm of `SchemaTypes::parse` and the
`unwrap()` in the single-variant case of `SchemaType::parse`) is embedded as
`Option.none`. -/

mutual
/-- `SchemaType::parse`: canonicalize one aggregated position. Zero non-null
variants yield `Unit`; one variant recurses into it; more than one variant
allocates a fresh enum id and registers one arm per shape. -/
def SchemaType.parse (b : SchemaBuilder) (ts : Types) : Option (SchemaType × SchemaBuilder) :=
  match ts.variants_count with
  | 0 => Option.some (.mk ts.is_nullable .unit, b)
  | 1 =>
    match hl : ts.variantsList.filter (fun t => !t.isNull) with
    | [] => Option.none
    | t :: _ =>
      match SchemaTypes.parse b t with
      | Option.none => Option.none
      | Option.some (typ, b2) => Option.some (.mk ts.is_nullable typ, b2)
  | _ + 2 =>
    let p := b.next_id
    match parseArms p.2 Enum.new (ts.variantsList.filter (fun t => !t.isNull)) with
    | Option.none => Option.none
    | Option.some (e, b2) =>
      Option.some (.mk ts.is_nullable (.enum p.1), b2.add_enum p.1 e)
termination_by ts.weight
decreasing_by
  · have hmem : t ∈ ts.variantsList.filter (fun t => !t.isNull) := by
      rw [hl]; exact List.mem_cons_self _ _
    have h1 := typListWeight_mem t _ hmem
    have h2 := typListWeight_filtered_variants ts
    omega
  · have h2 := typListWeight_filtered_variants ts
    omega

/-- The arm loop of the multi-variant case of `SchemaType::parse`: parse each
shape, derive its `Variant` tag with `varinat`, and register the arm. -/
def parseArms (b : SchemaBuilder) (e : Enum) : List Typ → Option (Enum × SchemaBuilder)
  | [] => Option.some (e, b)
  | t :: rest =>
    match SchemaTypes.parse b t with
    | Option.none => Option.none
    | Option.some (typ, b2) => parseArms b2 (e.add typ.varinat typ) rest
termination_by l => typListWeight l
decreasing_by
  · simp only [typListWeight, Typ.weight]
    omega
  · simp only [typListWeight]
    omega

/-- `SchemaTypes::parse`: canonicalize one shape. The `Null` arm is the
`unreachable!()` of the Rust code; an `Object` draws a fresh struct id before
recursing over its fields. -/
def SchemaTypes.parse (b : SchemaBuilder) : Typ → Option (SchemaTypes × SchemaBuilder)
  | .null => Option.none
  | .bool => Option.some (.bool, b)
  | .u64 => Option.some (.u64, b)
  | .i64 => Option.some (.i64, b)
  | .float => Option.some (.float, b)
  | .str => Option.some (.str, b)
  | .array ts =>
    match SchemaType.parse b ts with
    | Option.none => Option.none
    | Option.some (t, b2) => Option.some (.array t, b2)
  | .object _ o =>
    let p := b.next_id
    match Struct.parseGo p.2 ⟨[]⟩ o with
    | Option.none => Option.none
    | Option.some (obj, b2) => Option.some (.struct p.1, b2.add_struct p.1 obj)
termination_by t => t.weight
decreasing_by
  · simp only [Typ.weight]
    omega
  · simp only [Typ.weight]
    omega

/-- The field loop of `Struct::parse`: canonicalize each field in stored
(field-name) order, inserting into the accumulated field map. -/
def Struct.parseGo (b : SchemaBuilder) (acc : Struct) : ObjectScheme → Option (Struct × SchemaBuilder)
  | .nil => Option.some (acc, b)
  | .cons k tsf rest =>
    match SchemaType.parse b tsf with
    | Option.none => Option.none
    | Option.some (t, b2) =>
      Struct.parseGo b2 ⟨insertSorted strLtB k t acc.fields⟩ rest
termination_by s => s.weight
decreasing_by
  · simp only [ObjectScheme.weight]
    omega
  · simp only [ObjectScheme.weight]
    omega
end

/-- `Struct::parse`: canonicalize an object scheme into a struct definition. -/
def Struct.parse (b : SchemaBuilder) (obj : ObjectScheme) : Option (Struct × SchemaBuilder) :=
  Struct.parseGo b ⟨[]⟩ obj

/-- `SchemaGenerator::build`: run the canonicalizer once on the aggregate. -/
def SchemaGenerator.build (g : SchemaGenerator) : Option Schema :=
  match SchemaType.parse SchemaBuilder.new g.types with
  | Option.none => Option.none
  | Option.some (root, b) => Option.some (b.build root)

/-! Renderer (translated from the `Display` impls and the `print` methods of
src/schema.rs). `writeln!` output is embedded as a list of lines; the I/O
error path of the sink is outside the model. -/

mutual
/-- The `Display` impl of `SchemaTypes`. -/
def SchemaTypes.render : SchemaTypes → String
  | .unit => "()"
  | .bool => "bool"
  | .u64 => "u64"
  | .i64 => "i64"
  | .float => "f64"
  | .str => "String"
  | .array t => "Vec<" ++ t.render ++ ">"
  | .struct id => "Struct" ++ toString id
  | .enum id => "Enum" ++ toString id

/-- The `Display` impl of `SchemaType`: nullable positions render inside
`Option<...>`. -/
def SchemaType.render : SchemaType → String
  | .mk true t => "Option<" ++ t.render ++ ">"
  | .mk false t => t.render
end

/-- The `Display` impl of `Variant`. -/
def Variant.render : Variant → String
  | .Primitive s => s
  | .Struct id => "Struct" ++ toString id
  | .Enum id => "Enum" ++ toString id

/-- `Struct::print`: the block of lines of one struct declaration, fields in
stored order. -/
def Struct.printLines (st : Struct) (type_name : String) : List String :=
  ("pub struct " ++ type_name ++ " \x7b")
    :: (st.fields.map (fun p => "    \"" ++ p.1 ++ "\": " ++ p.2.render ++ ","))
    ++ ["\x7d"]

/-- `Enum::print`: the block of lines of one enum declaration, arms in stored
order. -/
def Enum.printLines (e : Enum) (type_name : String) : List String :=
  ("pub enum " ++ type_name ++ " \x7b")
    :: (e.arms.map (fun p => "    " ++ p.1.render ++ "(" ++ p.2.render ++ "),"))
    ++ ["\x7d"]

/-- `SchemaType::is_struct`. -/
def SchemaType.is_struct : SchemaType → Bool
  | .mk _ (.struct _) => true
  | _ => false

/-- `SchemaType::is_enum`. -/
def SchemaType.is_enum : SchemaType → Bool
  | .mk _ (.enum _) => true
  | _ => false

/-- The table part of `Schema::print`: every struct declaration in stored
(ascending id) order, then every enum declaration in stored order, each
preceded by a blank line. -/
def Schema.declLines (s : Schema) : List String :=
  (s.structs.map (fun p => "" :: Struct.printLines p.2 ("Struct" ++ toString p.1))).flatten
    ++ (s.enums.map (fun p => "" :: Enum.printLines p.2 ("Enum" ++ toString p.1))).flatten

/-- `Schema::print`: the root declaration first — the struct or enum table
entry of id 0 printed as `Root` (its `unwrap()` embedded as `Option.none`),
or, for any other root shape, a single wrapper line after which the method
returns early. -/
def Schema.print (s : Schema) : Option (List String) :=
  if s.root.is_struct then
    match lookupKey 0 s.structs with
    | Option.none => Option.none
    | Option.some root => Option.some (Struct.printLines root "Root" ++ s.declLines)
  else if s.root.is_enum then
    match lookupKey 0 s.enums with
    | Option.none => Option.none
    | Option.some root => Option.some (Enum.printLines root "Root" ++ s.declLines)
  else
    Option.some ["pub struct Root(" ++ s.root.render ++ ")"]

/-! Ordered-map lemmas for `insertSorted`/`lookupKey`, generic in the key
order's basic facts. -/

/-- Sortedness of an association list: keys strictly ascending under `lt`. -/
def sortedKeys (lt : κ → κ → Bool) (l : List (κ × α)) : Prop :=
  List.Chain' (fun p q => lt p.1 q.1 = true) l

theorem lookupKey_insertSorted_self [DecidableEq κ] (lt : κ → κ → Bool)
    (hirr : ∀ a, lt a a = false) (k : κ) (v : α) : ∀ (l : List (κ × α)),
    lookupKey k (insertSorted lt k v l) = Option.some v
  | [] => by simp [insertSorted, lookupKey]
  | (k', v') :: r => by
    by_cases h1 : lt k k' = true
    · simp [insertSorted, h1, lookupKey]
    · by_cases h2 : lt k' k = true
      · have hne : ¬(k' = k) := by
          intro he
          subst he
          rw [hirr k'] at h2
          exact Bool.false_ne_true h2
        simp [insertSorted, h1, h2, lookupKey, hne,
          lookupKey_insertSorted_self lt hirr k v r]
      · simp [insertSorted, h1, h2, lookupKey]

theorem lookupKey_insertSorted_ne [DecidableEq κ] (lt : κ → κ → Bool)
    (hconn : ∀ a b, lt a b = false → lt b a = false → a = b)
    (k q : κ) (v : α) (hq : q ≠ k) : ∀ (l : List (κ × α)),
    lookupKey q (insertSorted lt k v l) = lookupKey q l
  | [] => by
    have : ¬(k = q) := fun he => hq he.symm
    simp [insertSorted, lookupKey, this]
  | (k', v') :: r => by
    have hkq : ¬(k = q) := fun he => hq he.symm
    by_cases h1 : lt k k' = true
    · simp [insertSorted, h1, lookupKey, hkq]
    · by_cases h2 : lt k' k = true
      · by_cases h3 : k' = q
        · subst h3
          simp [insertSorted, h1, h2, lookupKey]
        · simp [insertSorted, h1, h2, lookupKey, h3,
            lookupKey_insertSorted_ne lt hconn k q v hq r]
      · have he : k = k' :=
          (hconn k' k (Bool.not_eq_true _ ▸ h2) (Bool.not_eq_true _ ▸ h1)).symm
        subst he
        simp [insertSorted, h1, h2, lookupKey, hkq]

theorem insertSorted_head_key [DecidableEq κ] (lt : κ → κ → Bool) (k : κ) (v : α)
    (l : List (κ × α)) (p : κ × α) (hp : p ∈ insertSorted lt k v l) :
    p.1 = k ∨ p ∈ l := by
  induction l with
  | nil =>
    simp [insertSorted] at hp
    subst hp
    exact Or.inl rfl
  | cons q r ih =>
    obtain ⟨k', v'⟩ := q
    by_cases h1 : lt k k' = true
    · simp [insertSorted, h1] at hp
      rcases hp with h | h | h
      · subst h; exact Or.inl rfl
      · subst h; exact Or.inr (List.mem_cons_self _ _)
      · exact Or.inr (List.mem_cons_of_mem _ h)
    · by_cases h2 : lt k' k = true
      · simp [insertSorted, h1, h2] at hp
        rcases hp with h | h
        · subst h; exact Or.inr (List.mem_cons_self _ _)
        · rcases ih h with h' | h'
          · exact Or.inl h'
          · exact Or.inr (List.mem_cons_of_mem _ h')
      · simp [insertSorted, h1, h2] at hp
        rcases hp with h | h
        · subst h; exact Or.inl rfl
        · exact Or.inr (List.mem_cons_of_mem _ h)

theorem insertSorted_sorted [DecidableEq κ] (lt : κ → κ → Bool)
    (hconn : ∀ a b, lt a b = false → lt b a = false → a = b)
    (k : κ) (v : α) : ∀ (l : List (κ × α)), sortedKeys lt l →
    sortedKeys lt (insertSorted lt k v l)
  | [], _ => by simp [insertSorted, sortedKeys]
  | (k', v') :: r, h => by
    have hr : sortedKeys lt r := (List.chain'_cons'.mp h).2
    have hhead : ∀ p ∈ r.head?, lt k' p.1 = true := (List.chain'_cons'.mp h).1
    by_cases h1 : lt k k' = true
    · simp only [insertSorted, h1, if_pos]
      exact List.chain'_cons.mpr ⟨h1, h⟩
    · by_cases h2 : lt k' k = true
      · simp only [insertSorted, h1, h2, Bool.false_eq_true, if_false, if_pos]
        apply List.chain'_cons'.mpr
        refine ⟨?_, insertSorted_sorted lt hconn k v r hr⟩
        intro p hp
        cases hl : r with
        | nil =>
          rw [hl] at hp
          simp [insertSorted] at hp
          rw [← hp]
          exact h2
        | cons q r2 =>
          obtain ⟨k2, v2⟩ := q
          rw [hl] at hp
          by_cases g1 : lt k k2 = true
          · simp [insertSorted, g1] at hp
            rw [← hp]
            exact h2
          · by_cases g2 : lt k2 k = true
            · simp [insertSorted, g1, g2] at hp
              rw [← hp]
              apply hhead
              rw [hl]
              rfl
            · simp [insertSorted, g1, g2] at hp
              rw [← hp]
              exact h2
      · have he : k = k' :=
          (hconn k' k (Bool.not_eq_true _ ▸ h2) (Bool.not_eq_true _ ▸ h1)).symm
        subst he
        simp only [insertSorted, h1, h2, Bool.false_eq_true, if_false]
        apply List.chain'_cons'.mpr
        exact ⟨fun p hp => hhead p hp, hr⟩

theorem length_insertSorted_fresh [DecidableEq κ] (lt : κ → κ → Bool)
    (hconn : ∀ a b, lt a b = false → lt b a = false → a = b)
    (k : κ) (v : α) : ∀ (l : List (κ × α)), lookupKey k l = Option.none →
    (insertSorted lt k v l).length = l.length + 1
  | [], _ => by simp [insertSorted]
  | (k', v') :: r, h => by
    have hne : ¬(k' = k) := by
      intro he
      simp [lookupKey, he] at h
    have hr : lookupKey k r = Option.none := by
      simpa [lookupKey, hne] using h
    by_cases h1 : lt k k' = true
    · simp [insertSorted, h1]
    · by_cases h2 : lt k' k = true
      · simp [insertSorted, h1, h2, length_insertSorted_fresh lt hconn k v r hr]
      · exact absurd ((hconn k' k (Bool.not_eq_true _ ▸ h2)
          (Bool.not_eq_true _ ▸ h1)).symm ▸ rfl : k' = k) hne

theorem lookupKey_mem_keys [DecidableEq κ] (k : κ) : ∀ (l : List (κ × α)),
    k ∈ l.map Prod.fst → lookupKey k l ≠ Option.none
  | [], h => by cases h
  | (k', v') :: r, h => by
    by_cases he : k' = k
    · simp [lookupKey, he]
    · have : k ∈ r.map Prod.fst := by
        rcases List.mem_cons.mp h with h0 | h0
        · exact absurd h0.symm he
        · exact h0
      simp [lookupKey, he, lookupKey_mem_keys k r this]

theorem lookupKey_not_mem_keys [DecidableEq κ] (k : κ) : ∀ (l : List (κ × α)),
    lookupKey k l = Option.none → k ∉ l.map Prod.fst :=
  fun l h hm => lookupKey_mem_keys k l hm h

/-! Basic order facts for the three key types. -/

theorem natLtB_irrefl (a : Nat) : natLtB a a = false := by simp [natLtB]

theorem natLtB_conn (a b : Nat) : natLtB a b = false → natLtB b a = false → a = b := by
  simp [natLtB]
  omega

theorem strLtB_irrefl (a : String) : strLtB a a = false := by simp [strLtB]

theorem strLtB_conn (a b : String) : strLtB a b = false → strLtB b a = false → a = b := by
  simp only [strLtB, decide_eq_false_iff_not]
  intro h1 h2
  exact le_antisymm (le_of_not_lt h2) (le_of_not_lt h1)

theorem variantLt_irrefl (a : Variant) : Variant.lt a a = false := by
  cases a with
  | Primitive s => simp [Variant.lt, strLtB_irrefl]
  | Struct i => simp [Variant.lt, natLtB_irrefl]
  | Enum i => simp [Variant.lt, natLtB_irrefl]

theorem variantLt_conn (a b : Variant) :
    Variant.lt a b = false → Variant.lt b a = false → a = b := by
  cases a <;> cases b <;> simp [Variant.lt]
  · exact strLtB_conn _ _
  · exact natLtB_conn _ _
  · exact natLtB_conn _ _

/-! Facts about the variant view of an aggregate. -/

theorem toTypList_no_null : ∀ (o : ObjSet) (t : Typ), t ∈ o.toTypList →
    t.isNull = false
  | .nil, t, h => by cases h
  | .cons l s r, t, h => by
    rcases List.mem_cons.mp h with h0 | h0
    · subst h0; rfl
    · exact toTypList_no_null r t h0

theorem variantsList_no_null (ts : Types) (t : Typ) (h : t ∈ ts.variantsList) :
    t.isNull = false := by
  obtain ⟨n, b, u, i, f, s, a, o⟩ := ts
  simp only [Types.variantsList, List.mem_append] at h
  rcases h with ((((((h | h) | h) | h) | h) | h) | h)
  · rcases Bool.eq_false_or_eq_true b with hb | hb <;> simp [hb] at h <;> simp [h, Typ.isNull]
  · rcases Bool.eq_false_or_eq_true u with hb | hb <;> simp [hb] at h <;> simp [h, Typ.isNull]
  · rcases Bool.eq_false_or_eq_true i with hb | hb <;> simp [hb] at h <;> simp [h, Typ.isNull]
  · rcases Bool.eq_false_or_eq_true f with hb | hb <;> simp [hb] at h <;> simp [h, Typ.isNull]
  · rcases Bool.eq_false_or_eq_true s with hb | hb <;> simp [hb] at h <;> simp [h, Typ.isNull]
  · cases a with
    | none => simp at h
    | some e => simp at h; simp [h, Typ.isNull]
  · exact toTypList_no_null o t h

theorem filter_variantsList (ts : Types) :
    ts.variantsList.filter (fun t => !t.isNull) = ts.variantsList := by
  apply List.filter_eq_self.mpr
  intro t ht
  simp [variantsList_no_null ts t ht]

/-! Builder invariants: every table key is below the counter, the two tables
are disjoint, tables are id-sorted, and every stored definition is itself
sorted. -/

/-- Well-formedness of the canonicalization state. -/
structure BWF (b : SchemaBuilder) : Prop where
  structs_below : ∀ k v, lookupKey k b.structs = Option.some v → k < b.id
  enums_below : ∀ k v, lookupKey k b.enums = Option.some v → k < b.id
  disjoint : ∀ k, lookupKey k b.structs = Option.none ∨ lookupKey k b.enums = Option.none
  structs_sorted : sortedKeys natLtB b.structs
  enums_sorted : sortedKeys natLtB b.enums
  struct_fields_sorted : ∀ k st, lookupKey k b.structs = Option.some st →
    sortedKeys strLtB st.fields
  enum_arms_sorted : ∀ k e, lookupKey k b.enums = Option.some e →
    sortedKeys Variant.lt e.arms

/-- Conservative extension of one canonicalization state by another: the
counter moves forward and entries below the old counter are untouched. -/
structure BExt (b b2 : SchemaBuilder) : Prop where
  id_le : b.id ≤ b2.id
  structs_pres : ∀ k, k < b.id → lookupKey k b2.structs = lookupKey k b.structs
  enums_pres : ∀ k, k < b.id → lookupKey k b2.enums = lookupKey k b.enums

theorem BExt.refl (b : SchemaBuilder) : BExt b b :=
  ⟨Nat.le_refl _, fun _ _ => Eq.refl _, fun _ _ => Eq.refl _⟩

theorem BExt.trans {b1 b2 b3 : SchemaBuilder} (h1 : BExt b1 b2) (h2 : BExt b2 b3) :
    BExt b1 b3 := by
  refine ⟨Nat.le_trans h1.id_le h2.id_le, ?_, ?_⟩
  · intro k hk
    rw [h2.structs_pres k (Nat.lt_of_lt_of_le hk h1.id_le), h1.structs_pres k hk]
  · intro k hk
    rw [h2.enums_pres k (Nat.lt_of_lt_of_le hk h1.id_le), h1.enums_pres k hk]

theorem BWF_new : BWF SchemaBuilder.new := by
  refine ⟨?_, ?_, ?_, ?_, ?_, ?_, ?_⟩
  · intro k v hk
    simp [SchemaBuilder.new, lookupKey] at hk
  · intro k v hk
    simp [SchemaBuilder.new, lookupKey] at hk
  · intro k
    exact Or.inl (Eq.refl _)
  · exact List.chain'_nil
  · exact List.chain'_nil
  · intro k st hk
    simp [SchemaBuilder.new, lookupKey] at hk
  · intro k e hk
    simp [SchemaBuilder.new, lookupKey] at hk

theorem BWF_bump (b : SchemaBuilder) (h : BWF b) : BWF { b with id := b.id + 1 } := by
  refine ⟨?_, ?_, ?_, h.structs_sorted, h.enums_sorted, h.struct_fields_sorted,
    h.enum_arms_sorted⟩
  · intro k v hk
    exact Nat.lt_succ_of_lt (h.structs_below k v hk)
  · intro k v hk
    exact Nat.lt_succ_of_lt (h.enums_below k v hk)
  · exact h.disjoint

theorem BExt_bump (b : SchemaBuilder) : BExt b { b with id := b.id + 1 } :=
  ⟨Nat.le_succ _, fun _ _ => rfl, fun _ _ => rfl⟩

theorem BWF_add_struct (b : SchemaBuilder) (id : Nat) (st : Struct) (h : BWF b)
    (hid : id < b.id)
    (hfs : lookupKey id b.structs = Option.none)
    (hfe : lookupKey id b.enums = Option.none)
    (hsorted : sortedKeys strLtB st.fields) :
    BWF (b.add_struct id st) := by
  refine ⟨?_, ?_, ?_, ?_, ?_, ?_, ?_⟩
  · intro k v hk
    by_cases he : k = id
    · subst he; exact hid
    · rw [SchemaBuilder.add_struct] at hk
      simp only at hk
      rw [lookupKey_insertSorted_ne natLtB natLtB_conn id k st he] at hk
      exact h.structs_below k v hk
  · intro k v hk
    exact h.enums_below k v hk
  · intro k
    by_cases he : k = id
    · subst he
      exact Or.inr hfe
    · rw [SchemaBuilder.add_struct]
      simp only
      rw [lookupKey_insertSorted_ne natLtB natLtB_conn id k st he]
      exact h.disjoint k
  · exact insertSorted_sorted natLtB natLtB_conn id st b.structs h.structs_sorted
  · exact h.enums_sorted
  · intro k stv hk
    by_cases he : k = id
    · subst he
      rw [SchemaBuilder.add_struct] at hk
      simp only at hk
      rw [lookupKey_insertSorted_self natLtB natLtB_irrefl k st b.structs] at hk
      cases hk
      exact hsorted
    · rw [SchemaBuilder.add_struct] at hk
      simp only at hk
      rw [lookupKey_insertSorted_ne natLtB natLtB_conn id k st he] at hk
      exact h.struct_fields_sorted k stv hk
  · exact h.enum_arms_sorted

theorem BWF_add_enum (b : SchemaBuilder) (id : Nat) (e : Enum) (h : BWF b)
    (hid : id < b.id)
    (hfs : lookupKey id b.structs = Option.none)
    (hfe : lookupKey id b.enums = Option.none)
    (hsorted : sortedKeys Variant.lt e.arms) :
    BWF (b.add_enum id e) := by
  refine ⟨?_, ?_, ?_, ?_, ?_, ?_, ?_⟩
  · intro k v hk
    exact h.structs_below k v hk
  · intro k v hk
    by_cases he : k = id
    · subst he; exact hid
    · rw [SchemaBuilder.add_enum] at hk
      simp only at hk
      rw [lookupKey_insertSorted_ne natLtB natLtB_conn id k e he] at hk
      exact h.enums_below k v hk
  · intro k
    by_cases he : k = id
    · subst he
      exact Or.inl hfs
    · rw [SchemaBuilder.add_enum]
      simp only
      rw [lookupKey_insertSorted_ne natLtB natLtB_conn id k e he]
      exact h.disjoint k
  · exact h.structs_sorted
  · exact insertSorted_sorted natLtB natLtB_conn id e b.enums h.enums_sorted
  · exact h.struct_fields_sorted
  · intro k ev hk
    by_cases he : k = id
    · subst he
      rw [SchemaBuilder.add_enum] at hk
      simp only at hk
      rw [lookupKey_insertSorted_self natLtB natLtB_irrefl k e b.enums] at hk
      cases hk
      exact hsorted
    · rw [SchemaBuilder.add_enum] at hk
      simp only at hk
      rw [lookupKey_insertSorted_ne natLtB natLtB_conn id k e he] at hk
      exact h.enum_arms_sorted k ev hk

theorem BExt_add_struct (b0 b : SchemaBuilder) (id : Nat) (st : Struct)
    (hid : b0.id ≤ id) (h : BExt b0 b) : BExt b0 (b.add_struct id st) := by
  refine ⟨h.id_le, ?_, h.enums_pres⟩
  intro k hk
  have hne : k ≠ id := fun he => absurd (he ▸ hk) (Nat.not_lt.mpr hid)
  rw [SchemaBuilder.add_struct]
  simp only
  rw [lookupKey_insertSorted_ne natLtB natLtB_conn id k st hne]
  exact h.structs_pres k hk

theorem BExt_add_enum (b0 b : SchemaBuilder) (id : Nat) (e : Enum)
    (hid : b0.id ≤ id) (h : BExt b0 b) : BExt b0 (b.add_enum id e) := by
  refine ⟨h.id_le, h.structs_pres, ?_⟩
  intro k hk
  have hne : k ≠ id := fun he => absurd (he ▸ hk) (Nat.not_lt.mpr hid)
  rw [SchemaBuilder.add_enum]
  simp only
  rw [lookupKey_insertSorted_ne natLtB natLtB_conn id k e hne]
  exact h.enums_pres k hk

/-! Unfolding equations for the canonicalizer, phrased per case. -/

theorem SchemaType.parse_eq_zero (b : SchemaBuilder) (ts : Types)
    (hc : ts.variants_count = 0) :
    SchemaType.parse b ts = Option.some (.mk ts.is_nullable .unit, b) := by
  rw [SchemaType.parse, hc]

theorem SchemaType.parse_eq_one (b : SchemaBuilder) (ts : Types) (t : Typ)
    (hc : ts.variants_count = 1) (hl : ts.variantsList = [t]) :
    SchemaType.parse b ts = (match SchemaTypes.parse b t with
      | Option.none => Option.none
      | Option.some (typ, b2) => Option.some (.mk ts.is_nullable typ, b2)) := by
  rw [SchemaType.parse, hc]
  split
  · rename_i heq
    exact absurd heq (by decide)
  · split
    · rename_i heq2
      rw [filter_variantsList, hl] at heq2
      cases heq2
    · rename_i t2 tail heq2
      rw [filter_variantsList, hl] at heq2
      injection heq2 with h1 h2
      subst h1
      rfl
  · rename_i n heq
    exact absurd heq (by omega)

theorem SchemaType.parse_eq_many (b : SchemaBuilder) (ts : Types) (n : Nat)
    (hc : ts.variants_count = n + 2) :
    SchemaType.parse b ts = (match parseArms { b with id := b.id + 1 } Enum.new
        (ts.variantsList.filter (fun t => !t.isNull)) with
      | Option.none => Option.none
      | Option.some (e, b2) =>
        Option.some (.mk ts.is_nullable (.enum b.id), b2.add_enum b.id e)) := by
  rw [SchemaType.parse, hc]
  rfl

theorem parseArms_nil (b : SchemaBuilder) (e : Enum) :
    parseArms b e [] = Option.some (e, b) := by
  rw [parseArms]

theorem parseArms_cons (b : SchemaBuilder) (e : Enum) (t : Typ) (rest : List Typ) :
    parseArms b e (t :: rest) = (match SchemaTypes.parse b t with
      | Option.none => Option.none
      | Option.some (typ, b2) => parseArms b2 (e.add typ.varinat typ) rest) := by
  rw [parseArms]

theorem SchemaTypes.parse_array (b : SchemaBuilder) (ts : Types) :
    SchemaTypes.parse b (.array ts) = (match SchemaType.parse b ts with
      | Option.none => Option.none
      | Option.some (t, b2) => Option.some (.array t, b2)) := by
  rw [SchemaTypes.parse]

theorem SchemaTypes.parse_object (b : SchemaBuilder) (lab : String) (o : ObjectScheme) :
    SchemaTypes.parse b (.object lab o) =
      (match Struct.parseGo { b with id := b.id + 1 } ⟨[]⟩ o with
      | Option.none => Option.none
      | Option.some (obj, b2) => Option.some (.struct b.id, b2.add_struct b.id obj)) := by
  rw [SchemaTypes.parse]
  rfl

theorem Struct.parseGo_nil (b : SchemaBuilder) (acc : Struct) :
    Struct.parseGo b acc .nil = Option.some (acc, b) := by
  rw [Struct.parseGo]

theorem Struct.parseGo_cons (b : SchemaBuilder) (acc : Struct) (k : String)
    (tsf : Types) (rest : ObjectScheme) :
    Struct.parseGo b acc (.cons k tsf rest) = (match SchemaType.parse b tsf with
      | Option.none => Option.none
      | Option.some (t, b2) =>
        Struct.parseGo b2 ⟨insertSorted strLtB k t acc.fields⟩ rest) := by
  rw [Struct.parseGo]

theorem BWF_lookup_ge (b : SchemaBuilder) (h : BWF b) (k : Nat) (hk : b.id ≤ k) :
    lookupKey k b.structs = Option.none ∧ lookupKey k b.enums = Option.none := by
  constructor
  · cases hl : lookupKey k b.structs with
    | none => rfl
    | some v => exact absurd (h.structs_below k v hl) (Nat.not_lt.mpr hk)
  · cases hl : lookupKey k b.enums with
    | none => rfl
    | some v => exact absurd (h.enums_below k v hl) (Nat.not_lt.mpr hk)

/-- The primitive-kind tag of a shape: the name `varinat` uses for scalar and
array shapes, `none` for object shapes (which receive composite ids). -/
def Typ.primTag : Typ → Option String
  | .bool => Option.some "Bool"
  | .u64 => Option.some "U64"
  | .i64 => Option.some "I64"
  | .float => Option.some "Float"
  | .str => Option.some "String"
  | .array _ => Option.some "Array"
  | _ => Option.none

/-! The canonicalizer master specification: totality, conservative extension,
well-formedness preservation, and the shape of the produced entries. The four
statements mirror the recursion of the four parse functions. -/

mutual
theorem SchemaType.parse_spec (b : SchemaBuilder) (ts : Types) :
    ∃ r b2, SchemaType.parse b ts = Option.some (r, b2)
      ∧ BExt b b2
      ∧ (BWF b → BWF b2)
      ∧ r.is_nullable = ts.is_nullable
      ∧ (∀ i, r.typ = SchemaTypes.struct i →
          i = b.id ∧ b.id < b2.id ∧ lookupKey i b2.structs ≠ Option.none)
      ∧ (∀ i, r.typ = SchemaTypes.enum i →
          i = b.id ∧ b.id < b2.id ∧ lookupKey i b2.enums ≠ Option.none) := by
  rcases hc : ts.variants_count with _ | _ | n
  · refine ⟨.mk ts.is_nullable .unit, b, SchemaType.parse_eq_zero b ts hc,
      BExt.refl b, fun h => h, rfl, ?_, ?_⟩
    · intro i hi
      simp [SchemaType.typ] at hi
    · intro i hi
      simp [SchemaType.typ] at hi
  · rw [Types.variants_count] at hc
    obtain ⟨t, hl⟩ := List.length_eq_one.mp hc
    have hmem : t ∈ ts.variantsList := by
      rw [hl]
      exact List.mem_cons_self _ _
    have hno : t.isNull = false := variantsList_no_null ts t hmem
    obtain ⟨ty, b2, hp, hext, hwf, htagS, htagN, hstructT, henumT⟩ :=
      schemaTypes_parse_spec b t hno
    refine ⟨.mk ts.is_nullable ty, b2, ?_, hext, hwf, rfl, ?_, ?_⟩
    · rw [SchemaType.parse_eq_one b ts t hc hl, hp]
    · intro i hi
      simp only [SchemaType.typ] at hi
      exact hstructT i hi
    · intro i hi
      simp only [SchemaType.typ] at hi
      exact absurd hi (henumT i)
  · have hnn : ∀ t ∈ ts.variantsList.filter (fun t => !t.isNull), t.isNull = false := by
      intro t ht
      rw [filter_variantsList] at ht
      exact variantsList_no_null ts t ht
    obtain ⟨e2, b2, hp, hext, hwf, hsortA, hcond⟩ :=
      parseArms_spec { b with id := b.id + 1 } Enum.new
        (ts.variantsList.filter (fun t => !t.isNull)) hnn
    have hfinal : SchemaType.parse b ts
        = Option.some (.mk ts.is_nullable (.enum b.id), b2.add_enum b.id e2) := by
      rw [SchemaType.parse_eq_many b ts n hc, hp]
    have hlt : b.id < b2.id := by
      have := hext.id_le
      simp only at this
      omega
    refine ⟨_, _, hfinal, ?_, ?_, rfl, ?_, ?_⟩
    · exact BExt_add_enum b b2 b.id e2 (Nat.le_refl _)
        (BExt.trans (BExt_bump b) hext)
    · intro h
      have hb1 : BWF { b with id := b.id + 1 } := BWF_bump b h
      have hfresh := BWF_lookup_ge b h b.id (Nat.le_refl _)
      have hfs : lookupKey b.id b2.structs = Option.none := by
        rw [hext.structs_pres b.id (by simp)]
        exact hfresh.1
      have hfe : lookupKey b.id b2.enums = Option.none := by
        rw [hext.enums_pres b.id (by simp)]
        exact hfresh.2
      exact BWF_add_enum b2 b.id e2 (hwf hb1) hlt hfs hfe
        (hsortA List.chain'_nil)
    · intro i hi
      simp [SchemaType.typ] at hi
    · intro i hi
      simp only [SchemaType.typ] at hi
      injection hi with hii
      subst hii
      refine ⟨rfl, hlt, ?_⟩
      simp [SchemaBuilder.add_enum,
        lookupKey_insertSorted_self natLtB natLtB_irrefl]
termination_by ts.weight
decreasing_by
  · have h1 := typListWeight_mem t _ hmem
    have h2 := typListWeight_variants ts
    omega
  · have h2 := typListWeight_filtered_variants ts
    omega

theorem parseArms_spec (b : SchemaBuilder) (e : Enum) (l : List Typ)
    (hnn : ∀ t ∈ l, t.isNull = false) :
    ∃ e2 b2, parseArms b e l = Option.some (e2, b2)
      ∧ BExt b b2
      ∧ (BWF b → BWF b2)
      ∧ (sortedKeys Variant.lt e.arms → sortedKeys Variant.lt e2.arms)
      ∧ ((l.filterMap Typ.primTag).Nodup →
         (∀ s ∈ l.filterMap Typ.primTag,
            lookupKey (Variant.Primitive s) e.arms = Option.none) →
         (∀ i, lookupKey (Variant.Struct i) e.arms ≠ Option.none → i < b.id) →
         e2.arms.length = e.arms.length + l.length
           ∧ (∀ v ty2, lookupKey v e2.arms = Option.some ty2 →
                lookupKey v e.arms = Option.some ty2 ∨ v = ty2.varinat)
           ∧ (∀ i, lookupKey (Variant.Struct i) e2.arms ≠ Option.none → i < b2.id)) := by
  match l, hnn with
  | [], _ =>
    refine ⟨e, b, parseArms_nil b e, BExt.refl b, fun h => h, fun h => h, ?_⟩
    intro _ _ hbound
    exact ⟨by simp, fun v ty2 hv => Or.inl hv, hbound⟩
  | t :: rest, hnn =>
    have hn : t.isNull = false := hnn t (List.mem_cons_self _ _)
    obtain ⟨ty, bt, hp, hext, hwf, htagS, htagN, hstructT, henumT⟩ :=
      schemaTypes_parse_spec b t hn
    obtain ⟨e2, b2, hp2, hext2, hwf2, hsort2, hcond2⟩ :=
      parseArms_spec bt (e.add ty.varinat ty) rest
        (fun t2 ht2 => hnn t2 (List.mem_cons_of_mem _ ht2))
    have hfinal : parseArms b e (t :: rest) = Option.some (e2, b2) := by
      rw [parseArms_cons, hp]
      exact hp2
    refine ⟨e2, b2, hfinal, BExt.trans hext hext2,
      fun h => hwf2 (hwf h), ?_, ?_⟩
    · intro hs
      exact hsort2 (by
        simp only [Enum.add]
        exact insertSorted_sorted Variant.lt variantLt_conn ty.varinat ty e.arms hs)
    · intro hnodup hfresh hbound
      cases hpt : t.primTag with
      | some s =>
        have hvar : ty.varinat = Variant.Primitive s := htagS s hpt
        have htags_cons : (t :: rest).filterMap Typ.primTag
            = s :: rest.filterMap Typ.primTag := by
          simp [List.filterMap_cons, hpt]
        have hnodup2 : (rest.filterMap Typ.primTag).Nodup := by
          rw [htags_cons] at hnodup
          exact hnodup.of_cons
        have hs_not : s ∉ rest.filterMap Typ.primTag := by
          rw [htags_cons] at hnodup
          exact (List.nodup_cons.mp hnodup).1
        have hself : lookupKey (Variant.Primitive s) e.arms = Option.none := by
          apply hfresh
          rw [htags_cons]
          exact List.mem_cons_self _ _
        have hfresh2 : ∀ q ∈ rest.filterMap Typ.primTag,
            lookupKey (Variant.Primitive q) (e.add ty.varinat ty).arms
              = Option.none := by
          intro q hq
          have hqs : Variant.Primitive q ≠ ty.varinat := by
            rw [hvar]
            intro he
            injection he with he2
            exact absurd (he2 ▸ hq) hs_not
          simp only [Enum.add]
          rw [lookupKey_insertSorted_ne Variant.lt variantLt_conn _ _ _ hqs]
          apply hfresh
          rw [htags_cons]
          exact List.mem_cons_of_mem _ hq
        have hbound2pre : ∀ i,
            lookupKey (Variant.Struct i) (e.add ty.varinat ty).arms ≠ Option.none →
            i < bt.id := by
          intro i hi
          have hne : Variant.Struct i ≠ ty.varinat := by
            rw [hvar]
            intro he
            cases he
          simp only [Enum.add] at hi
          rw [lookupKey_insertSorted_ne Variant.lt variantLt_conn _ _ _ hne] at hi
          exact Nat.lt_of_lt_of_le (hbound i hi) hext.id_le
        obtain ⟨hlen2, htags2, hbound3⟩ := hcond2 hnodup2 hfresh2 hbound2pre
        refine ⟨?_, ?_, hbound3⟩
        · have hlen1 : (e.add ty.varinat ty).arms.length = e.arms.length + 1 := by
            simp only [Enum.add]
            apply length_insertSorted_fresh Variant.lt variantLt_conn
            rw [hvar]
            exact hself
          rw [hlen2, hlen1]
          simp [Nat.add_assoc, Nat.add_comm 1]
        · intro v ty2 hv
          rcases htags2 v ty2 hv with h | h
          · by_cases hveq : v = ty.varinat
            · subst hveq
              simp only [Enum.add] at h
              rw [lookupKey_insertSorted_self Variant.lt variantLt_irrefl] at h
              injection h with h2
              subst h2
              exact Or.inr rfl
            · simp only [Enum.add] at h
              rw [lookupKey_insertSorted_ne Variant.lt variantLt_conn _ _ _ hveq] at h
              exact Or.inl h
          · exact Or.inr h
      | none =>
        have hstructTy : ty = SchemaTypes.struct b.id := htagN hpt
        obtain ⟨_, hltb, hlookb⟩ := hstructT b.id hstructTy
        have hvar : ty.varinat = Variant.Struct b.id := by
          rw [hstructTy]
          rfl
        have htags_cons : (t :: rest).filterMap Typ.primTag
            = rest.filterMap Typ.primTag := by
          simp [List.filterMap_cons, hpt]
        have hself : lookupKey (Variant.Struct b.id) e.arms = Option.none := by
          cases hlk : lookupKey (Variant.Struct b.id) e.arms with
          | none => rfl
          | some v =>
            exact absurd (hbound b.id (by rw [hlk]; simp)) (Nat.lt_irrefl _)
        have hfresh2 : ∀ q ∈ rest.filterMap Typ.primTag,
            lookupKey (Variant.Primitive q) (e.add ty.varinat ty).arms
              = Option.none := by
          intro q hq
          have hqs : Variant.Primitive q ≠ ty.varinat := by
            rw [hvar]
            intro he
            cases he
          simp only [Enum.add]
          rw [lookupKey_insertSorted_ne Variant.lt variantLt_conn _ _ _ hqs]
          apply hfresh
          rw [htags_cons]
          exact hq
        have hbound2pre : ∀ i,
            lookupKey (Variant.Struct i) (e.add ty.varinat ty).arms ≠ Option.none →
            i < bt.id := by
          intro i hi
          by_cases hieq : Variant.Struct i = ty.varinat
          · rw [hvar] at hieq
            injection hieq with h2
            subst h2
            exact hltb
          · simp only [Enum.add] at hi
            rw [lookupKey_insertSorted_ne Variant.lt variantLt_conn _ _ _ hieq] at hi
            exact Nat.lt_of_lt_of_le (hbound i hi) hext.id_le
        obtain ⟨hlen2, htags2, hbound3⟩ := hcond2 (htags_cons ▸ hnodup)
          hfresh2 hbound2pre
        refine ⟨?_, ?_, hbound3⟩
        · have hlen1 : (e.add ty.varinat ty).arms.length = e.arms.length + 1 := by
            simp only [Enum.add]
            apply length_insertSorted_fresh Variant.lt variantLt_conn
            rw [hvar]
            exact hself
          rw [hlen2, hlen1]
          simp [Nat.add_assoc, Nat.add_comm 1]
        · intro v ty2 hv
          rcases htags2 v ty2 hv with h | h
          · by_cases hveq : v = ty.varinat
            · subst hveq
              simp only [Enum.add] at h
              rw [lookupKey_insertSorted_self Variant.lt variantLt_irrefl] at h
              injection h with h2
              subst h2
              exact Or.inr rfl
            · simp only [Enum.add] at h
              rw [lookupKey_insertSorted_ne Variant.lt variantLt_conn _ _ _ hveq] at h
              exact Or.inl h
          · exact Or.inr h
termination_by typListWeight l
decreasing_by
  · simp only [typListWeight]
    omega
  · simp only [typListWeight]
    omega

theorem schemaTypes_parse_spec (b : SchemaBuilder) (t : Typ)
    (hn : t.isNull = false) :
    ∃ ty b2, SchemaTypes.parse b t = Option.some (ty, b2)
      ∧ BExt b b2
      ∧ (BWF b → BWF b2)
      ∧ (∀ s, t.primTag = Option.some s → ty.varinat = Variant.Primitive s)
      ∧ (t.primTag = Option.none → ty = SchemaTypes.struct b.id)
      ∧ (∀ i, ty = SchemaTypes.struct i →
          i = b.id ∧ b.id < b2.id ∧ lookupKey i b2.structs ≠ Option.none)
      ∧ (∀ i, ty ≠ SchemaTypes.enum i) := by
  match t, hn with
  | .bool, _ =>
    refine ⟨.bool, b, by rw [SchemaTypes.parse], BExt.refl b, fun h => h, ?_, ?_, ?_, ?_⟩
    · intro s hs
      simp [Typ.primTag] at hs
      subst hs
      rfl
    · intro h
      simp [Typ.primTag] at h
    · intro i hi
      simp at hi
    · intro i hi
      simp at hi
  | .u64, _ =>
    refine ⟨.u64, b, by rw [SchemaTypes.parse], BExt.refl b, fun h => h, ?_, ?_, ?_, ?_⟩
    · intro s hs
      simp [Typ.primTag] at hs
      subst hs
      rfl
    · intro h
      simp [Typ.primTag] at h
    · intro i hi
      simp at hi
    · intro i hi
      simp at hi
  | .i64, _ =>
    refine ⟨.i64, b, by rw [SchemaTypes.parse], BExt.refl b, fun h => h, ?_, ?_, ?_, ?_⟩
    · intro s hs
      simp [Typ.primTag] at hs
      subst hs
      rfl
    · intro h
      simp [Typ.primTag] at h
    · intro i hi
      simp at hi
    · intro i hi
      simp at hi
  | .float, _ =>
    refine ⟨.float, b, by rw [SchemaTypes.parse], BExt.refl b, fun h => h, ?_, ?_, ?_, ?_⟩
    · intro s hs
      simp [Typ.primTag] at hs
      subst hs
      rfl
    · intro h
      simp [Typ.primTag] at h
    · intro i hi
      simp at hi
    · intro i hi
      simp at hi
  | .str, _ =>
    refine ⟨.str, b, by rw [SchemaTypes.parse], BExt.refl b, fun h => h, ?_, ?_, ?_, ?_⟩
    · intro s hs
      simp [Typ.primTag] at hs
      subst hs
      rfl
    · intro h
      simp [Typ.primTag] at h
    · intro i hi
      simp at hi
    · intro i hi
      simp at hi
  | .array ts, _ =>
    obtain ⟨r, b2, hp, hext, hwf, hnul, hstructR, henumR⟩ := SchemaType.parse_spec b ts
    refine ⟨.array r, b2, ?_, hext, hwf, ?_, ?_, ?_, ?_⟩
    · rw [SchemaTypes.parse_array, hp]
    · intro s hs
      simp [Typ.primTag] at hs
      subst hs
      rfl
    · intro h
      simp [Typ.primTag] at h
    · intro i hi
      simp at hi
    · intro i hi
      simp at hi
  | .object lab o, _ =>
    obtain ⟨st, b2, hpGo, hextGo, hwfGo, hsortGo⟩ :=
      Struct.parseGo_spec { b with id := b.id + 1 } ⟨[]⟩ o
    have hfinal : SchemaTypes.parse b (.object lab o)
        = Option.some (.struct b.id, b2.add_struct b.id st) := by
      rw [SchemaTypes.parse_object, hpGo]
    have hlt : b.id < b2.id := by
      have := hextGo.id_le
      simp only at this
      omega
    refine ⟨.struct b.id, b2.add_struct b.id st, hfinal, ?_, ?_, ?_, ?_, ?_, ?_⟩
    · exact BExt_add_struct b b2 b.id st (Nat.le_refl _)
        (BExt.trans (BExt_bump b) hextGo)
    · intro h
      have hfresh := BWF_lookup_ge b h b.id (Nat.le_refl _)
      have hfs : lookupKey b.id b2.structs = Option.none := by
        rw [hextGo.structs_pres b.id (by simp)]
        exact hfresh.1
      have hfe : lookupKey b.id b2.enums = Option.none := by
        rw [hextGo.enums_pres b.id (by simp)]
        exact hfresh.2
      exact BWF_add_struct b2 b.id st (hwfGo (BWF_bump b h)) hlt hfs hfe
        (hsortGo List.chain'_nil)
    · intro s hs
      simp [Typ.primTag] at hs
    · intro _
      rfl
    · intro i hi
      injection hi with h2
      subst h2
      refine ⟨rfl, by simpa [SchemaBuilder.add_struct] using hlt, ?_⟩
      simp [SchemaBuilder.add_struct,
        lookupKey_insertSorted_self natLtB natLtB_irrefl]
    · intro i hi
      simp at hi
termination_by t.weight
decreasing_by
  · simp only [Typ.weight]
    omega
  · simp only [Typ.weight]
    omega

theorem Struct.parseGo_spec (b : SchemaBuilder) (acc : Struct) (s : ObjectScheme) :
    ∃ st b2, Struct.parseGo b acc s = Option.some (st, b2)
      ∧ BExt b b2
      ∧ (BWF b → BWF b2)
      ∧ (sortedKeys strLtB acc.fields → sortedKeys strLtB st.fields) := by
  match s with
  | .nil =>
    exact ⟨acc, b, Struct.parseGo_nil b acc, BExt.refl b, fun h => h, fun h => h⟩
  | .cons k tsf rest =>
    obtain ⟨r, bt, hp, hext, hwf, hnul, hstructR, henumR⟩ := SchemaType.parse_spec b tsf
    obtain ⟨st, b2, hp2, hext2, hwf2, hsort2⟩ :=
      Struct.parseGo_spec bt ⟨insertSorted strLtB k r acc.fields⟩ rest
    refine ⟨st, b2, ?_, BExt.trans hext hext2, fun h => hwf2 (hwf h), ?_⟩
    · rw [Struct.parseGo_cons, hp]
      exact hp2
    · intro hs
      exact hsort2 (insertSorted_sorted strLtB strLtB_conn k r acc.fields hs)
termination_by s.weight
decreasing_by
  · simp only [ObjectScheme.weight]
    omega
  · simp only [ObjectScheme.weight]
    omega
end

/-! Claim theorems. -/

/-- C1: for any two document lists containing the same set of documents —
any permutation, any number of repetitions — the generator pipeline
(`add_value` per document, then `build`) produces the same `Schema`:
widening is a commutative, associative, idempotent set union. -/
theorem generator_order_independent (c : Criteria) (l1 l2 : List Json)
    (h : ∀ d, d ∈ l1 ↔ d ∈ l2) :
    (l1.foldl SchemaGenerator.add_value (SchemaGenerator.new c)).build
      = (l2.foldl SchemaGenerator.add_value (SchemaGenerator.new c)).build := by
  rw [generator_fold_state, generator_fold_state, aggregate_ext c l1 l2 h]

/-- Witness for `generator_order_independent` on concrete document lists. -/
theorem generator_order_independent_witness :
    (∀ d : Json, d ∈ [Json.null, Json.bool true]
        ↔ d ∈ [Json.bool true, Json.null, Json.null]) ∧
    (List.foldl SchemaGenerator.add_value (SchemaGenerator.new Criteria.new)
        [Json.null, Json.bool true]).build
      = (List.foldl SchemaGenerator.add_value (SchemaGenerator.new Criteria.new)
        [Json.bool true, Json.null, Json.null]).build := by
  have hmem : ∀ d : Json, d ∈ [Json.null, Json.bool true]
      ↔ d ∈ [Json.bool true, Json.null, Json.null] := by
    intro d
    simp only [List.mem_cons, List.not_mem_nil, or_false]
    tauto
  exact ⟨hmem, generator_order_independent Criteria.new _ _ hmem⟩

/-- C4: canonicalization is total — for every aggregate (whose canonical
representation carries the `Types` invariant: `variants_count` counts the
distinct non-null shapes and `Null` is never a variant), `SchemaType::parse`
returns a result, never reaching the `unreachable!()` of the `Null` arm
(the only error arm, shown second) nor a failing `unwrap`. -/
theorem canonicalization_total (b : SchemaBuilder) (ts : Types) :
    (SchemaType.parse b ts).isSome = true
      ∧ SchemaTypes.parse b Typ.null = Option.none := by
  constructor
  · obtain ⟨r, b2, hp, _⟩ := SchemaType.parse_spec b ts
    rw [hp]
    rfl
  · rw [SchemaTypes.parse]

/-- C5: an aggregate with zero non-null variants canonicalizes to `Unit`, one
with a single variant canonicalizes to the canonical form of that single
shape, and in every case the resulting `is_nullable` equals the aggregate's
nullability. -/
theorem parse_unit_single_nullability (b : SchemaBuilder) (ts : Types) :
    (ts.variants_count = 0 →
      SchemaType.parse b ts = Option.some (.mk ts.is_nullable .unit, b))
    ∧ (∀ t, ts.variantsList = [t] →
        SchemaType.parse b ts = (match SchemaTypes.parse b t with
          | Option.none => Option.none
          | Option.some (typ, b2) => Option.some (.mk ts.is_nullable typ, b2)))
    ∧ (∀ r b2, SchemaType.parse b ts = Option.some (r, b2) →
        r.is_nullable = ts.is_nullable) := by
  refine ⟨?_, ?_, ?_⟩
  · intro hc
    exact SchemaType.parse_eq_zero b ts hc
  · intro t hl
    have hc : ts.variants_count = 1 := by
      rw [Types.variants_count, hl]
      rfl
    exact SchemaType.parse_eq_one b ts t hc hl
  · intro r b2 hp
    obtain ⟨r2, b3, hp2, _, _, hnul, _⟩ := SchemaType.parse_spec b ts
    rw [hp] at hp2
    injection hp2 with hpair
    injection hpair with hr hb
    rw [← hr] at hnul
    exact hnul

/-- Witness for `parse_unit_single_nullability` on the empty aggregate, a
nullable single-scalar aggregate, and their parse results. -/
theorem parse_unit_single_nullability_witness :
    SchemaType.parse SchemaBuilder.new Types.empty
      = Option.some (.mk false .unit, SchemaBuilder.new)
    ∧ SchemaType.parse SchemaBuilder.new
        (Types.mk true false false false false true .none .nil)
      = Option.some (.mk true .str, SchemaBuilder.new)
    ∧ (SchemaType.mk true SchemaTypes.str).is_nullable
        = (Types.mk true false false false false true .none .nil).is_nullable := by
  refine ⟨?_, ?_, ?_⟩
  · exact (parse_unit_single_nullability SchemaBuilder.new Types.empty).1 rfl
  · have h := (parse_unit_single_nullability SchemaBuilder.new
      (Types.mk true false false false false true .none .nil)).2.1 Typ.str rfl
    rw [show SchemaTypes.parse SchemaBuilder.new Typ.str
        = Option.some (.str, SchemaBuilder.new) from by rw [SchemaTypes.parse]] at h
    exact h
  · exact (parse_unit_single_nullability SchemaBuilder.new
      (Types.mk true false false false false true .none .nil)).2.2
      (.mk true .str) SchemaBuilder.new (by
        have h := (parse_unit_single_nullability SchemaBuilder.new
          (Types.mk true false false false false true .none .nil)).2.1 Typ.str rfl
        rw [show SchemaTypes.parse SchemaBuilder.new Typ.str
            = Option.some (.str, SchemaBuilder.new) from by rw [SchemaTypes.parse]] at h
        exact h)

theorem filterMap_primTag_toTypList : ∀ (o : ObjSet),
    (o.toTypList).filterMap Typ.primTag = []
  | .nil => rfl
  | .cons l s r => by
    simp [ObjSet.toTypList, List.filterMap_cons, Typ.primTag,
      filterMap_primTag_toTypList r]

theorem variants_primTags_nodup (ts : Types) :
    (ts.variantsList.filterMap Typ.primTag).Nodup := by
  obtain ⟨n, b, u, i, f, s, a, o⟩ := ts
  have h1 : List.Sublist ((if b then [Typ.bool] else []).filterMap Typ.primTag) ["Bool"] := by
    cases b
    · simp
    · simp [List.filterMap_cons, Typ.primTag]
  have h2 : List.Sublist ((if u then [Typ.u64] else []).filterMap Typ.primTag) ["U64"] := by
    cases u
    · simp
    · simp [List.filterMap_cons, Typ.primTag]
  have h3 : List.Sublist ((if i then [Typ.i64] else []).filterMap Typ.primTag) ["I64"] := by
    cases i
    · simp
    · simp [List.filterMap_cons, Typ.primTag]
  have h4 : List.Sublist ((if f then [Typ.float] else []).filterMap Typ.primTag) ["Float"] := by
    cases f
    · simp
    · simp [List.filterMap_cons, Typ.primTag]
  have h5 : List.Sublist ((if s then [Typ.str] else []).filterMap Typ.primTag) ["String"] := by
    cases s
    · simp
    · simp [List.filterMap_cons, Typ.primTag]
  have hA : List.Sublist ((match a with
      | ArrSlot.none => []
      | ArrSlot.some e => [Typ.array e]).filterMap Typ.primTag) ["Array"] := by
    cases a
    · simp
    · simp [List.filterMap_cons, Typ.primTag]
  have key : List.Sublist
      ((Types.variantsList (.mk n b u i f s a o)).filterMap Typ.primTag)
      (["Bool"] ++ ["U64"] ++ ["I64"] ++ ["Float"] ++ ["String"]
          ++ ["Array"] ++ ([] : List String)) := by
    simp only [Types.variantsList, List.filterMap_append, filterMap_primTag_toTypList]
    exact (((((h1.append h2).append h3).append h4).append h5).append hA).append
      (List.Sublist.refl [])
  exact key.nodup (by decide)

/-- C2: on an aggregate with more than one distinct non-null shape,
`SchemaType::parse` allocates a fresh enum id (present in neither table),
registers under it an `Enum` with exactly one arm per distinct non-null
shape, each arm keyed by `varinat` of its canonical shape — the
primitive-kind name for scalar and array shapes, the freshly assigned
composite id otherwise — and returns `Enum(id)`. -/
theorem parse_multi_variant_enum (b : SchemaBuilder) (ts : Types) (n : Nat)
    (hwfb : BWF b) (hc : ts.variants_count = n + 2) :
    ∃ (e : Enum) (b2 : SchemaBuilder), SchemaType.parse b ts
        = Option.some (.mk ts.is_nullable (.enum b.id), b2.add_enum b.id e)
      ∧ lookupKey b.id b.structs = Option.none
      ∧ lookupKey b.id b.enums = Option.none
      ∧ lookupKey b.id (b2.add_enum b.id e).enums = Option.some e
      ∧ e.arms.length = ts.variants_count
      ∧ (∀ (v : Variant) (ty : SchemaTypes), lookupKey v e.arms = Option.some ty → v = ty.varinat) := by
  have hnn : ∀ t ∈ ts.variantsList.filter (fun t => !t.isNull), t.isNull = false := by
    intro t ht
    rw [filter_variantsList] at ht
    exact variantsList_no_null ts t ht
  obtain ⟨e2, b2, hp, hext, hwf, hsortA, hcond⟩ :=
    parseArms_spec { b with id := b.id + 1 } Enum.new
      (ts.variantsList.filter (fun t => !t.isNull)) hnn
  obtain ⟨hlen, htags, hbound⟩ := hcond
    (by rw [filter_variantsList]; exact variants_primTags_nodup ts)
    (fun s hs => rfl)
    (fun i hi => absurd rfl hi)
  refine ⟨e2, b2, ?_, (BWF_lookup_ge b hwfb b.id (Nat.le_refl _)).1,
    (BWF_lookup_ge b hwfb b.id (Nat.le_refl _)).2, ?_, ?_, ?_⟩
  · rw [SchemaType.parse_eq_many b ts n hc, hp]
  · simp [SchemaBuilder.add_enum, lookupKey_insertSorted_self natLtB natLtB_irrefl]
  · rw [hlen, filter_variantsList]
    simp [Enum.new, Types.variants_count]
  · intro v ty hv
    rcases htags v ty hv with h | h
    · exact absurd h (by simp [Enum.new, lookupKey])
    · exact h

/-- Witness for `parse_multi_variant_enum` on a two-variant aggregate. -/
theorem parse_multi_variant_enum_witness :
    ∃ (e : Enum) (b2 : SchemaBuilder), SchemaType.parse SchemaBuilder.new
        (Types.mk false true true false false false .none .nil)
        = Option.some (.mk (Types.mk false true true false false false
            .none .nil).is_nullable (.enum SchemaBuilder.new.id),
          b2.add_enum SchemaBuilder.new.id e)
      ∧ lookupKey SchemaBuilder.new.id SchemaBuilder.new.structs = Option.none
      ∧ lookupKey SchemaBuilder.new.id SchemaBuilder.new.enums = Option.none
      ∧ lookupKey SchemaBuilder.new.id (b2.add_enum SchemaBuilder.new.id e).enums
          = Option.some e
      ∧ e.arms.length = (Types.mk false true true false false false
          .none .nil).variants_count
      ∧ (∀ (v : Variant) (ty : SchemaTypes), lookupKey v e.arms = Option.some ty → v = ty.varinat) :=
  parse_multi_variant_enum SchemaBuilder.new
    (Types.mk false true true false false false .none .nil) 0 BWF_new rfl

/-- C6: every object shape draws a fresh struct id distinct from all
previously allocated ids, and there is no cross-position deduplication: two
positions holding object aggregates — even structurally identical ones —
receive distinct struct ids when canonicalized in sequence. -/
theorem object_positions_fresh_ids (b : SchemaBuilder) (hwfb : BWF b)
    (lab1 lab2 : String) (s1 s2 : ObjectScheme) (ts1 ts2 : Types)
    (h1 : ts1.variantsList = [Typ.object lab1 s1])
    (h2 : ts2.variantsList = [Typ.object lab2 s2]) :
    ∃ b1 b2 r1 r2,
      SchemaType.parse b ts1 = Option.some (r1, b1)
      ∧ SchemaType.parse b1 ts2 = Option.some (r2, b2)
      ∧ r1.typ = SchemaTypes.struct b.id
      ∧ r2.typ = SchemaTypes.struct b1.id
      ∧ b.id ≠ b1.id
      ∧ lookupKey b.id b.structs = Option.none
      ∧ lookupKey b.id b.enums = Option.none
      ∧ lookupKey b.id b1.structs ≠ Option.none
      ∧ lookupKey b1.id b2.structs ≠ Option.none := by
  have hc1 : ts1.variants_count = 1 := by
    rw [Types.variants_count, h1]
    rfl
  have hc2 : ts2.variants_count = 1 := by
    rw [Types.variants_count, h2]
    rfl
  obtain ⟨ty1, b1, hp1, hext1, hwf1, _, htagN1, hstruct1, _⟩ :=
    schemaTypes_parse_spec b (.object lab1 s1) rfl
  have hty1 : ty1 = .struct b.id := htagN1 rfl
  obtain ⟨_, hlt1, hlook1⟩ := hstruct1 b.id hty1
  obtain ⟨ty2, b2, hp2, hext2, hwf2, _, htagN2, hstruct2, _⟩ :=
    schemaTypes_parse_spec b1 (.object lab2 s2) rfl
  have hty2 : ty2 = .struct b1.id := htagN2 rfl
  obtain ⟨_, hlt2, hlook2⟩ := hstruct2 b1.id hty2
  refine ⟨b1, b2, .mk ts1.is_nullable ty1, .mk ts2.is_nullable ty2, ?_, ?_,
    ?_, ?_, Nat.ne_of_lt hlt1, (BWF_lookup_ge b hwfb b.id (Nat.le_refl _)).1,
    (BWF_lookup_ge b hwfb b.id (Nat.le_refl _)).2, hlook1, hlook2⟩
  · rw [SchemaType.parse_eq_one b ts1 _ hc1 h1, hp1]
  · rw [SchemaType.parse_eq_one b1 ts2 _ hc2 h2, hp2]
  · rw [SchemaType.typ, hty1]
  · rw [SchemaType.typ, hty2]

/-- Witness for `object_positions_fresh_ids` on two identical empty-object
aggregates. -/
theorem object_positions_fresh_ids_witness :
    ∃ b1 b2 r1 r2,
      SchemaType.parse SchemaBuilder.new ((Typ.object "" .nil).toTypes)
        = Option.some (r1, b1)
      ∧ SchemaType.parse b1 ((Typ.object "" .nil).toTypes) = Option.some (r2, b2)
      ∧ r1.typ = SchemaTypes.struct SchemaBuilder.new.id
      ∧ r2.typ = SchemaTypes.struct b1.id
      ∧ SchemaBuilder.new.id ≠ b1.id
      ∧ lookupKey SchemaBuilder.new.id SchemaBuilder.new.structs = Option.none
      ∧ lookupKey SchemaBuilder.new.id SchemaBuilder.new.enums = Option.none
      ∧ lookupKey SchemaBuilder.new.id b1.structs ≠ Option.none
      ∧ lookupKey b1.id b2.structs ≠ Option.none :=
  object_positions_fresh_ids SchemaBuilder.new BWF_new "" "" .nil .nil
    ((Typ.object "" .nil).toTypes) ((Typ.object "" .nil).toTypes) rfl rfl

theorem sorted_keys_nodup (l : List (Nat × α)) (h : sortedKeys natLtB l) :
    (l.map Prod.fst).Nodup := by
  have hchain : List.Chain' (fun x y => x < y) (l.map Prod.fst) := by
    rw [List.chain'_map]
    exact List.Chain'.imp (fun a c hab => by simpa [natLtB] using hab) h
  have hpair : List.Pairwise (fun x y => x < y) (l.map Prod.fst) :=
    List.chain'_iff_pairwise.mp hchain
  exact hpair.imp Nat.ne_of_lt

/-- C7: in every built `Schema`, the ids are drawn from the single shared
counter, so all allocated ids are pairwise distinct across both tables (no id
names both a struct and an enum; no entry is overwritten), and both tables
are in strictly ascending id order. -/
theorem build_ids_distinct_disjoint (g : SchemaGenerator) (s : Schema)
    (h : g.build = Option.some s) :
    ((s.structs.map Prod.fst) ++ (s.enums.map Prod.fst)).Nodup
    ∧ (∀ k, lookupKey k s.structs = Option.none ∨ lookupKey k s.enums = Option.none)
    ∧ sortedKeys natLtB s.structs ∧ sortedKeys natLtB s.enums := by
  obtain ⟨r, b2, hp, hext, hwf, _⟩ := SchemaType.parse_spec SchemaBuilder.new g.types
  have hwf2 : BWF b2 := hwf BWF_new
  simp only [SchemaGenerator.build, hp] at h
  injection h with h2
  subst h2
  simp only [SchemaBuilder.build]
  refine ⟨?_, hwf2.disjoint, hwf2.structs_sorted, hwf2.enums_sorted⟩
  apply List.Nodup.append (sorted_keys_nodup _ hwf2.structs_sorted)
    (sorted_keys_nodup _ hwf2.enums_sorted)
  intro k hk1 hk2
  rcases hwf2.disjoint k with hd | hd
  · exact lookupKey_mem_keys k b2.structs hk1 hd
  · exact lookupKey_mem_keys k b2.enums hk2 hd

theorem is_struct_exists (r : SchemaType) (h : r.is_struct = true) :
    ∃ i, r.typ = SchemaTypes.struct i := by
  obtain ⟨n, t⟩ := r
  cases t <;> simp_all [SchemaType.is_struct, SchemaType.typ]

theorem is_enum_exists (r : SchemaType) (h : r.is_enum = true) :
    ∃ i, r.typ = SchemaTypes.enum i := by
  obtain ⟨n, t⟩ := r
  cases t <;> simp_all [SchemaType.is_enum, SchemaType.typ]

/-- C8: in every built `Schema`, a struct-shaped root names id 0 and the
structs table holds key 0; an enum-shaped root names id 0 and the enums
table holds key 0 — the `unwrap`s on `get(&0)` in `Schema::print` cannot
fail. -/
theorem build_root_table_entry (g : SchemaGenerator) (s : Schema)
    (h : g.build = Option.some s) :
    (s.root.is_struct = true →
      s.root.typ = SchemaTypes.struct 0 ∧ lookupKey 0 s.structs ≠ Option.none)
    ∧ (s.root.is_enum = true →
      s.root.typ = SchemaTypes.enum 0 ∧ lookupKey 0 s.enums ≠ Option.none) := by
  obtain ⟨r, b2, hp, hext, hwf, hnul, hstructC, henumC⟩ :=
    SchemaType.parse_spec SchemaBuilder.new g.types
  simp only [SchemaGenerator.build, hp] at h
  injection h with h2
  subst h2
  simp only [SchemaBuilder.build]
  constructor
  · intro hs
    obtain ⟨i, hi⟩ := is_struct_exists r hs
    obtain ⟨hi0, _, hlook⟩ := hstructC i hi
    subst hi0
    exact ⟨hi, hlook⟩
  · intro hs
    obtain ⟨i, hi⟩ := is_enum_exists r hs
    obtain ⟨hi0, _, hlook⟩ := henumC i hi
    subst hi0
    exact ⟨hi, hlook⟩

/-! Concrete sample pipeline used by the witnesses: the single document
`{"a": 1}` and, for the renderer, the document `[{"a": 1}]`. -/

/-- The sample document `{"a": 1}`. -/
def sampleDoc : Json := Json.obj (.cons "a" (Json.numU 1) .nil)

/-- The struct definition inferred from `sampleDoc`. -/
def sampleStruct : Struct := ⟨[("a", SchemaType.mk false SchemaTypes.u64)]⟩

/-- The schema inferred from `sampleDoc`. -/
def sampleSchema : Schema :=
  ⟨SchemaType.mk false (SchemaTypes.struct 0), [(0, sampleStruct)], []⟩

theorem sample_build :
    ((SchemaGenerator.new Criteria.new).add_value sampleDoc).build
      = Option.some sampleSchema := by
  have htypes : ((SchemaGenerator.new Criteria.new).add_value sampleDoc).types
      = (Typ.object "" (.cons "a" (Typ.u64.toTypes) .nil)).toTypes := by
    simp [SchemaGenerator.add_value, SchemaGenerator.new, Types.add, Types.union,
      ArrSlot.union, ObjSet.union, ObjectScheme.union, Types.empty, Typ.toTypes,
      Json.from_value, JsonFields.toScheme, JsonList.elemTypes, labelOf,
      Criteria.is_split_enum, Criteria.new, alookup, appendPath,
      ObjectScheme.insert, sampleDoc]
  have hparse : SchemaType.parse SchemaBuilder.new
      ((Typ.object "" (.cons "a" (Typ.u64.toTypes) .nil)).toTypes)
      = Option.some (SchemaType.mk false (SchemaTypes.struct 0),
          ⟨[(0, sampleStruct)], [], 1⟩) := by
    simp [SchemaType.parse_eq_one, SchemaTypes.parse_object, SchemaTypes.parse,
      Struct.parseGo_cons, Struct.parseGo_nil, parseArms_nil, parseArms_cons,
      Types.variants_count, Types.variantsList, Typ.toTypes, ObjSet.toTypList,
      Typ.isNull, Types.is_nullable, SchemaBuilder.new, SchemaBuilder.next_id,
      SchemaBuilder.add_struct, insertSorted, Typ.primTag, Enum.new, Enum.add,
      lookupKey, sampleStruct]
  simp only [SchemaGenerator.build, htypes, hparse, SchemaBuilder.build,
    sampleSchema]

/-- Witness for `build_ids_distinct_disjoint` on the sample schema. -/
theorem build_ids_distinct_disjoint_witness :
    ((sampleSchema.structs.map Prod.fst) ++ (sampleSchema.enums.map Prod.fst)).Nodup
    ∧ (∀ k, lookupKey k sampleSchema.structs = Option.none
        ∨ lookupKey k sampleSchema.enums = Option.none)
    ∧ sortedKeys natLtB sampleSchema.structs ∧ sortedKeys natLtB sampleSchema.enums :=
  build_ids_distinct_disjoint ((SchemaGenerator.new Criteria.new).add_value sampleDoc)
    sampleSchema sample_build

/-- Witness for `build_root_table_entry` on the sample schema. -/
theorem build_root_table_entry_witness :
    sampleSchema.root.typ = SchemaTypes.struct 0
    ∧ lookupKey 0 sampleSchema.structs ≠ Option.none :=
  (build_root_table_entry ((SchemaGenerator.new Criteria.new).add_value sampleDoc)
    sampleSchema sample_build).1 (by decide)

/-- C3 (amended): `Schema::print` emits the root declaration first; when the
root is a struct or an enum it then emits every struct declaration in
ascending id order followed by every enum declaration in ascending id order
(`declLines` walks the stored tables, which are sorted), each struct listing
its fields in stored field-name order and each enum its arms in stored
`Variant` order; when the root is any other shape it emits only the trivial
named wrapper line and returns early, without the table declarations. -/
theorem schema_print_order (g : SchemaGenerator) (s : Schema)
    (h : g.build = Option.some s) :
    (s.root.is_struct = true → ∃ st, lookupKey 0 s.structs = Option.some st
        ∧ Schema.print s = Option.some (Struct.printLines st "Root" ++ Schema.declLines s))
    ∧ (s.root.is_enum = true → ∃ e, lookupKey 0 s.enums = Option.some e
        ∧ Schema.print s = Option.some (Enum.printLines e "Root" ++ Schema.declLines s))
    ∧ (s.root.is_struct = false → s.root.is_enum = false →
        Schema.print s = Option.some ["pub struct Root(" ++ s.root.render ++ ")"])
    ∧ sortedKeys natLtB s.structs ∧ sortedKeys natLtB s.enums
    ∧ (∀ k st, lookupKey k s.structs = Option.some st → sortedKeys strLtB st.fields)
    ∧ (∀ k e, lookupKey k s.enums = Option.some e → sortedKeys Variant.lt e.arms) := by
  obtain ⟨r, b2, hp, hext, hwf, hnul, hstructC, henumC⟩ :=
    SchemaType.parse_spec SchemaBuilder.new g.types
  have hwf2 : BWF b2 := hwf BWF_new
  simp only [SchemaGenerator.build, hp] at h
  injection h with h2
  subst h2
  simp only [SchemaBuilder.build]
  refine ⟨?_, ?_, ?_, hwf2.structs_sorted, hwf2.enums_sorted,
    hwf2.struct_fields_sorted, hwf2.enum_arms_sorted⟩
  · intro hs
    obtain ⟨i, hi⟩ := is_struct_exists r hs
    obtain ⟨hi0, _, hlook⟩ := hstructC i hi
    subst hi0
    obtain ⟨st, hst⟩ := Option.ne_none_iff_exists'.mp hlook
    rw [show (SchemaBuilder.new.id : Nat) = 0 from rfl] at hst
    refine ⟨st, hst, ?_⟩
    simp only [Schema.print, SchemaBuilder.build, hs, if_pos, hst]
  · intro hs
    obtain ⟨i, hi⟩ := is_enum_exists r hs
    obtain ⟨hi0, _, hlook⟩ := henumC i hi
    subst hi0
    obtain ⟨e, hst⟩ := Option.ne_none_iff_exists'.mp hlook
    rw [show (SchemaBuilder.new.id : Nat) = 0 from rfl] at hst
    refine ⟨e, hst, ?_⟩
    have hns : r.is_struct = false := by
      obtain ⟨n, t⟩ := r
      cases t <;> simp_all [SchemaType.is_struct, SchemaType.is_enum]
    simp only [Schema.print, SchemaBuilder.build, hs, hns, Bool.false_eq_true,
      if_false, if_pos, hst]
  · intro h1 h2
    simp only [Schema.print, SchemaBuilder.build, h1, h2, Bool.false_eq_true,
      if_false]

/-- Witness for `schema_print_order` on the sample schema (struct root). -/
theorem schema_print_order_witness :
    ∃ st, lookupKey 0 sampleSchema.structs = Option.some st
      ∧ Schema.print sampleSchema
        = Option.some (Struct.printLines st "Root" ++ Schema.declLines sampleSchema) :=
  (schema_print_order ((SchemaGenerator.new Criteria.new).add_value sampleDoc)
    sampleSchema sample_build).1 (by decide)

/-- Counterexample to C3 as stated: a built `Schema` whose root resolved to
an array shape has a non-empty structs table, yet `Schema::print` emits only
the wrapper line and never the `Struct0` declaration — the claim that every
printed schema lists all struct declarations after the root is false. -/
theorem schema_print_skips_tables_counterexample :
    ∃ (s : Schema) (L : List String),
      ((SchemaGenerator.new Criteria.new).add_value
          (Json.arr (.cons sampleDoc .nil))).build = Option.some s
      ∧ s.structs.map Prod.fst = [0]
      ∧ Schema.print s = Option.some L
      ∧ "pub struct Struct0 \x7b" ∉ L
      ∧ ∀ st ∈ s.structs, "pub struct Struct0 \x7b" ∈ Struct.printLines st.2 "Struct0" := by
  refine ⟨⟨SchemaType.mk false (SchemaTypes.array (SchemaType.mk false
      (SchemaTypes.struct 0))), [(0, sampleStruct)], []⟩,
    ["pub struct Root(Vec<Struct0>)"], ?_, by decide, ?_, by decide, ?_⟩
  · have htypes : ((SchemaGenerator.new Criteria.new).add_value
        (Json.arr (.cons sampleDoc .nil))).types
        = (Typ.array ((Typ.object "" (.cons "a" (Typ.u64.toTypes) .nil)).toTypes)).toTypes := by
      simp [SchemaGenerator.add_value, SchemaGenerator.new, Types.add, Types.union,
        ArrSlot.union, ObjSet.union, ObjectScheme.union, Types.empty, Typ.toTypes,
        Json.from_value, JsonFields.toScheme, JsonList.elemTypes, labelOf,
        Criteria.is_split_enum, Criteria.new, alookup, appendPath,
        ObjectScheme.insert, sampleDoc]
    have hparse : SchemaType.parse SchemaBuilder.new
        ((Typ.array ((Typ.object "" (.cons "a" (Typ.u64.toTypes) .nil)).toTypes)).toTypes)
        = Option.some (SchemaType.mk false (SchemaTypes.array (SchemaType.mk false
            (SchemaTypes.struct 0))), ⟨[(0, sampleStruct)], [], 1⟩) := by
      simp [SchemaType.parse_eq_one, SchemaTypes.parse_array, SchemaTypes.parse_object,
        SchemaTypes.parse, Struct.parseGo_cons, Struct.parseGo_nil, parseArms_nil,
        parseArms_cons, Types.variants_count, Types.variantsList, Typ.toTypes,
        ObjSet.toTypList, Typ.isNull, Types.is_nullable, SchemaBuilder.new,
        SchemaBuilder.next_id, SchemaBuilder.add_struct, insertSorted, Typ.primTag,
        Enum.new, Enum.add, lookupKey, sampleStruct]
    simp only [SchemaGenerator.build, htypes, hparse, SchemaBuilder.build]
  · simp [Schema.print, SchemaType.is_struct, SchemaType.is_enum, SchemaType.render,
      SchemaTypes.render]
    rfl
  · intro st hst
    simp only [List.mem_cons, List.not_mem_nil, or_false] at hst
    subst hst
    simp [Struct.printLines, sampleStruct]

end EdsmSchema
